import Mathlib

/-!
# External merge sort of the lines of a text file (`main.cpp`)

A shallow embedding of the two phases of the program:

* `splitInput` cuts the input file into slices that fit the memory budget, sorts each
  slice and writes it to a temporary file `temp_<i>`;
* `writeOutput` repeatedly selects a line among the first lines of the temporary files,
  appends it to the output file and removes it from its temporary file
  (`discard1stLine`).

Files are sequences of characters.  A character stands for one byte of the file; the
order on lines is the lexicographic order of `std::string::operator<`.  Streams carry the
`eofbit` and `failbit` of `std::fstream`, because both loops of the program that read a
file are of the form `while (!stream.eof()) getline(stream, line)`.
Sizes and counters are natural numbers: every quantity the program computes is bounded by
the size of the input file and of the address space, far below `2^64`.
-/

namespace ExtSort

/-- A line of text: the content of a `std::string` holding no record separator. -/
abbrev Line := List Char

/-- The record separator written after every line and recognised by `getline`. -/
def newline : Char := '\n'

/-- The constant `sizeof(string)` of the admission check (its value under the GNU C++
library on 64-bit Linux, the platform the program names). -/
def sizeofString : Nat := 32

/-! ## Input streams -/

/-- An `fstream` opened for reading: the bytes of the file, the read position and the two
state flags that the program observes. -/
structure IStream where
  data : List Char
  pos : Nat
  eofbit : Bool
  failbit : Bool
deriving DecidableEq, Repr

/-- Result of `stream.open(name, ios::in)`: a missing file sets `failbit`. -/
def openIn : Option (List Char) → IStream
  | some d => { data := d, pos := 0, eofbit := false, failbit := false }
  | none => { data := [], pos := 0, eofbit := false, failbit := true }

/-- The call `getline(stream, str)`.  When the stream is not good nothing is extracted, `str`
keeps its value and `failbit` is set.  Otherwise `str` is erased and characters are
extracted up to the next separator, which is consumed and dropped; reaching the end of the
file instead sets `eofbit`, and also `failbit` when nothing at all was extracted. -/
def getline (s : IStream) (str : Line) : IStream × Line :=
  if s.eofbit || s.failbit then
    ({ s with failbit := true }, str)
  else
    let rest := s.data.drop s.pos
    let line := rest.takeWhile (fun c => c != newline)
    if line.length < rest.length then
      ({ s with pos := s.pos + line.length + 1 }, line)
    else
      ({ s with pos := s.pos + line.length, eofbit := true, failbit := line.isEmpty }, line)

/-- The call `stream.seekg(-n, ios_base::cur)`: `eofbit` is cleared first; a stream whose
`failbit` is set is left where it is; a target before the start of the file makes the seek
fail. -/
def seekgBack (s : IStream) (n : Nat) : IStream :=
  if s.failbit then
    { s with eofbit := false }
  else if n ≤ s.pos then
    { s with pos := s.pos - n, eofbit := false }
  else
    { s with eofbit := false, failbit := true }

/-! ## Temporary files -/

/-- The temporary files: `fs i` is the content of `temp_<i>` when that file exists. -/
abbrev TempFS := Nat → Option (List Char)

/-- The directory before the first slice is written. -/
def emptyFS : TempFS := fun _ => none

/-- Bytes written for a list of lines: every line followed by a separator. -/
def writeLines : List Line → List Char
  | [] => []
  | l :: ls => l ++ newline :: writeLines ls

/-- The lines of a file: the pieces between separators, the piece after the last separator
included. -/
def splitLines : List Char → List Line
  | [] => [[]]
  | c :: cs =>
    if c = newline then [] :: splitLines cs
    else
      match splitLines cs with
      | [] => [[c]]
      | l :: ls => (c :: l) :: ls

/-- The lines of a file that have content. -/
def nonEmptyLines (d : List Char) : List Line :=
  (splitLines d).filter (fun l => !l.isEmpty)

/-- The call `sort(vLines.begin(), vLines.end())`.  The order on lines is linear, so the
sorted arrangement of a slice is unique. -/
def sortLines (v : List Line) : List Line :=
  v.insertionSort (fun a b => a ≤ b)

/-- The function `sortWriteSlice`: sort the slice and write it to `temp_<iFilenumber>`. -/
def sortWriteSlice (fs : TempFS) (vLines : List Line) (iFilenumber : Nat) : TempFS :=
  Function.update fs iFilenumber (some (writeLines (sortLines vLines)))

/-! ## Phase 1: `splitInput` -/

/-- The variables of `splitInput`, with the temporary files written so far. -/
structure SplitState where
  stInputfile : IStream
  szCurrentLine : Line
  vLines : List Line
  lCurrentSize : Nat
  lTotalLines : Nat
  iTotalFiles : Nat
  fs : TempFS

/-- The state in which `splitInput` enters its loop. -/
def splitInit (input : List Char) : SplitState :=
  { stInputfile := openIn (some input), szCurrentLine := [], vLines := [],
    lCurrentSize := 0, lTotalLines := 0, iTotalFiles := 0, fs := emptyFS }

/-- One pass through the body of the loop of `splitInput`; `footprint` is the value
`(unsigned long long)(dVm + dRss)` that `memUsage` yields in this pass. -/
def splitStep (footprint gMemLimit : Nat) (st : SplitState) : SplitState :=
  let r := getline st.stInputfile st.szCurrentLine
  let line := r.2
  if footprint + st.lCurrentSize + sizeofString + line.length ≤ gMemLimit then
    if line.length > 0 then
      { st with
        stInputfile := r.1, szCurrentLine := line,
        vLines := st.vLines ++ [line],
        lTotalLines := st.lTotalLines + 1,
        lCurrentSize := st.lCurrentSize + (sizeofString + line.length) }
    else
      { st with stInputfile := r.1, szCurrentLine := line }
  else
    { stInputfile := seekgBack r.1 (line.length + 1), szCurrentLine := line,
      vLines := [], lCurrentSize := 0, lTotalLines := st.lTotalLines,
      iTotalFiles := st.iTotalFiles + 1,
      fs := sortWriteSlice st.fs st.vLines st.iTotalFiles }

/-- The loop `while (!stInputfile.eof())` of `splitInput`, run for at most `fuel` passes;
`mem k` is the footprint sampled in pass `k`.  The value is `none` when the loop is still
running after `fuel` passes. -/
def splitLoop (mem : Nat → Nat) (gMemLimit : Nat) : Nat → Nat → SplitState → Option SplitState
  | 0, _, st => if st.stInputfile.eofbit then some st else none
  | fuel + 1, k, st =>
    if st.stInputfile.eofbit then some st
    else splitLoop mem gMemLimit fuel (k + 1) (splitStep (mem k) gMemLimit st)

/-- What `splitInput` hands over: its return value, the total it stores in `lTotalLines`,
and the temporary files. -/
structure SplitResult where
  iTotalFiles : Nat
  lTotalLines : Nat
  fs : TempFS

/-- The code of `splitInput` after its loop: a slice still in memory is written out. -/
def splitFinish (st : SplitState) : SplitResult :=
  if st.vLines.length > 0 then
    { iTotalFiles := st.iTotalFiles + 1, lTotalLines := st.lTotalLines,
      fs := sortWriteSlice st.fs st.vLines st.iTotalFiles }
  else
    { iTotalFiles := st.iTotalFiles, lTotalLines := st.lTotalLines, fs := st.fs }

/-- The function `splitInput` on an input file with content `input`, under the budget
`gMemLimit` and the footprint samples `mem`. -/
def splitInput (mem : Nat → Nat) (gMemLimit : Nat) (fuel : Nat) (input : List Char) :
    Option SplitResult :=
  (splitLoop mem gMemLimit fuel 0 (splitInit input)).map splitFinish

/-! ## Phase 2: `writeOutput` -/

/-- The function `fileSize`: the size of `temp_<i>`, and `-1` converted to
`unsigned long long` when the file does not exist. -/
def fileSize (fs : TempFS) (i : Nat) : Nat :=
  match fs i with
  | some d => d.length
  | none => 2 ^ 64 - 1

/-- The loop `while (!stOrgFile.eof())` of `discard1stLine`, run for at most `fuel` passes:
each pass reads a line and copies it to the new file when it has content. -/
def discardLoop : Nat → IStream → Line → List Char → Option (List Char)
  | 0, s, _, out => if s.eofbit then some out else none
  | fuel + 1, s, szLine, out =>
    if s.eofbit then some out
    else
      let r := getline s szLine
      discardLoop fuel r.1 r.2 (if r.2.length > 0 then out ++ (r.2 ++ [newline]) else out)

/-- The function `discard1stLine` applied to `temp_<name>`: the first line is read and
skipped, the following lines are copied to a new file, which then takes the place of the
original.  The value is `none` when the copying loop is still running after `fuel`
passes. -/
def discard1stLine (fuel : Nat) (fs : TempFS) (name : Nat) : Option TempFS :=
  let r := getline (openIn (fs name)) []
  (discardLoop fuel r.1 r.2 []).map (fun d => Function.update fs name (some d))

/-- The variables of `writeOutput`, with the temporary files and the bytes written to the
output file so far.  File names `temp_<i>` are kept as the number `i`. -/
structure MergeState where
  arLines : Fin 2 → Line
  arFilenumber : Fin 2 → Nat
  lMinIdx : Fin 2
  lOtherIdx : Fin 2
  szMinFilename : Nat
  lWrittenLines : Nat
  output : List Char
  fs : TempFS

/-- The state in which `writeOutput` enters its main loop: the first line of `temp_0` is
the current min string.  `garbage` is the indeterminate value of the uninitialised
`arFilenumber[1]`. -/
def mergeInit (garbage : Nat) (fs : TempFS) : MergeState :=
  { arLines := fun i => if i = 0 then (getline (openIn (fs 0)) []).2 else [],
    arFilenumber := fun i => if i = 0 then 0 else garbage,
    lMinIdx := 0, lOtherIdx := 1, szMinFilename := 0,
    lWrittenLines := 0, output := [], fs := fs }

/-- One pass through the body of the `for` loop of `writeOutput`, for the temporary file
`temp_<iFilenumber>`. -/
def scanFile (st : MergeState) (iFilenumber : Nat) : MergeState :=
  if iFilenumber = st.arFilenumber st.lMinIdx then st
  else if fileSize st.fs iFilenumber ≤ 0 then st
  else
    let line := (getline (openIn (st.fs iFilenumber)) (st.arLines st.lOtherIdx)).2
    let arLines := Function.update st.arLines st.lOtherIdx line
    let arFilenumber := Function.update st.arFilenumber st.lOtherIdx iFilenumber
    if arLines st.lOtherIdx < arLines st.lMinIdx then
      { st with
        arLines := arLines, arFilenumber := arFilenumber,
        lMinIdx := st.lOtherIdx, lOtherIdx := st.lMinIdx,
        szMinFilename := iFilenumber }
    else
      { st with arLines := arLines, arFilenumber := arFilenumber }

/-- The `for` loop of `writeOutput` over the temporary files `temp_0 .. temp_<N-1>`. -/
def scanFiles (iTotalFiles : Nat) (st : MergeState) : MergeState :=
  (List.range iTotalFiles).foldl scanFile st

/-- One pass through the body of the main loop of `writeOutput`: scan the temporary files,
write the current min string, discard the first line of `szMinFilename`, and take the
other entry of the two arrays as the new min string. -/
def mergeIter (fuel iTotalFiles : Nat) (st : MergeState) : Option MergeState :=
  let st1 := scanFiles iTotalFiles st
  match discard1stLine fuel st1.fs st1.szMinFilename with
  | none => none
  | some fs1 =>
    some { st1 with
      output := st1.output ++ (st1.arLines st1.lMinIdx ++ [newline]),
      lWrittenLines := st1.lWrittenLines + 1,
      fs := fs1,
      lMinIdx := st1.lOtherIdx, lOtherIdx := st1.lMinIdx,
      szMinFilename := st1.arFilenumber st1.lOtherIdx }

/-- The loop `while (lWrittenLines < lTotalLines)`, for `n` lines still to be written. -/
def mergeLoop (fuel iTotalFiles : Nat) : Nat → MergeState → Option MergeState
  | 0, st => some st
  | n + 1, st => (mergeIter fuel iTotalFiles st).bind (mergeLoop fuel iTotalFiles n)

/-- The function `writeOutput`, up to the removal of the temporary files: the final state of
its main loop.  The value is `none` when a call of `discard1stLine` does not return within
`fuel` passes of its loop. -/
def writeOutput (garbage fuel : Nat) (fs : TempFS) (iTotalFiles lTotalLines : Nat) :
    Option MergeState :=
  mergeLoop fuel iTotalFiles lTotalLines (mergeInit garbage fs)

/-! ## The program -/

/-- What a run of `main` leaves behind: the exit status, the result of phase 1 and the
final state of phase 2 when these phases were run. -/
structure MainResult where
  exitCode : Int
  split : Option SplitResult
  merge : Option MergeState

/-- The function `main`.  `argc` is the number of arguments, `input` the content of the
input file when it exists, `gMemLimit` the budget read from the third argument,
`startFootprint` the footprint sampled before phase 1 and `mem` the samples taken in
phase 1.  The value is `none` when the program is still running after `fuel` passes of one
of its reading loops. -/
def main (argc : Nat) (input : Option (List Char)) (gMemLimit startFootprint : Nat)
    (mem : Nat → Nat) (garbage fuel : Nat) : Option MainResult :=
  if argc < 4 then some { exitCode := 1, split := none, merge := none }
  else
    match input with
    | none => some { exitCode := -1, split := none, merge := none }
    | some d =>
      if gMemLimit ≤ startFootprint then some { exitCode := -1, split := none, merge := none }
      else
        match splitInput mem gMemLimit fuel d with
        | none => none
        | some r =>
          match writeOutput garbage fuel r.fs r.iTotalFiles r.lTotalLines with
          | none => none
          | some m => some { exitCode := 0, split := some r, merge := some m }

/-- The bytes of the output file after a run of `main` that reached phase 2. -/
def outputOf (r : Option MainResult) : Option (List Char) :=
  r.bind (fun x => x.merge.map (fun m => m.output))

/-! ## Notions used to state the properties -/

/-- Condition on a read position `p` of the input: when no separator follows `p`, the
character before `p` is a separator. -/
def AtLineStart (input : List Char) (p : Nat) : Prop :=
  1 ≤ p → newline ∉ input.drop p → input.drop (p - 1) = newline :: input.drop p

/-- The input stream of `splitInput` is in step with the lines `pending`, still to be read:
either the stream is good and stands where these lines start, or `eofbit` is set and nothing
is left. -/
def StreamAt (input : List Char) (s : IStream) (pending : List Line) : Prop :=
  s.data = input ∧
  ((s.eofbit = false ∧ s.failbit = false ∧ s.pos ≤ input.length ∧
      pending = nonEmptyLines (input.drop s.pos) ∧ AtLineStart input s.pos) ∨
    (s.eofbit = true ∧ pending = []))

/-- Invariant of the loop of `splitInput`: the slices written so far are `batches`, one
temporary file each, and together with the slice in memory and the lines still to be read
they make up the non-empty lines of the input, in order. -/
structure SplitInv (input : List Char) (st : SplitState) (batches : List (List Line)) : Prop where
  stream : ∃ pending, StreamAt input st.stInputfile pending ∧
    batches.flatten ++ st.vLines ++ pending = nonEmptyLines input
  files : st.iTotalFiles = batches.length
  fs_eq : ∀ i, st.fs i = (batches[i]?).map (fun b => writeLines (sortLines b))
  total : st.lTotalLines = (batches.flatten ++ st.vLines).length

/-- A stream on which `failbit` is set and `eofbit` is not: no later read succeeds and the
end of the file is never reported. -/
def Stuck (s : IStream) : Prop := s.eofbit = false ∧ s.failbit = true

/-- The lines of a file in the order successive `getline` calls deliver them: the pieces
between separators, without the empty piece that follows a final separator. -/
def fileLines (d : List Char) : List Line :=
  if (splitLines d).getLast? = some [] then (splitLines d).dropLast else splitLines d

/-- The lines held in the run `temp_<i>`. -/
def runLines (fs : TempFS) (i : Nat) : List Line :=
  match fs i with
  | some d => fileLines d
  | none => []

/-- The lines held in the runs `temp_0 .. temp_<n-1>`, run after run. -/
def allRunLines (fs : TempFS) (n : Nat) : List Line :=
  (List.range n).flatMap (runLines fs)

/-- The temporary files that hold the given runs: `temp_<i>` is the `i`-th run, written line
by line. -/
def runsFS (runs : List (List Line)) : TempFS :=
  fun i => (runs[i]?).map writeLines

/-- The merge frontier: the first lines of the temporary files `temp_0 .. temp_<n-1>` that
are not empty. -/
def frontier (fs : TempFS) (n : Nat) : List Line :=
  (List.range n).filterMap (fun i => (runLines fs i).head?)

/-- The line that the pass of the main loop of `writeOutput` starting in state `st` writes
to the output file. -/
def lineWritten (iTotalFiles : Nat) (st : MergeState) : Line :=
  (scanFiles iTotalFiles st).arLines (scanFiles iTotalFiles st).lMinIdx

/-- The admission check of `splitInput` for the line that the next pass reads. -/
def admits (footprint gMemLimit : Nat) (st : SplitState) : Bool :=
  decide (footprint + st.lCurrentSize + sizeofString +
    (getline st.stInputfile st.szCurrentLine).2.length ≤ gMemLimit)

/-- Along the first `fuel` passes of the loop of `splitInput` under the budget `lo`, the
admission check has the same outcome under the budget `hi`. -/
def sameAdmission (mem : Nat → Nat) (lo hi : Nat) : Nat → Nat → SplitState → Bool
  | 0, _, _ => true
  | fuel + 1, k, st =>
    st.stInputfile.eofbit ||
      ((admits (mem k) lo st == admits (mem k) hi st) &&
        sameAdmission mem lo hi fuel (k + 1) (splitStep (mem k) lo st))

/-- After `n` further passes of the loop of `splitInput`, none of which starts with `eofbit`
set, the input stream has `failbit` set and `eofbit` cleared. -/
def stuckAfter (mem : Nat → Nat) (gMemLimit : Nat) : Nat → Nat → SplitState → Bool
  | 0, _, st => !st.stInputfile.eofbit && st.stInputfile.failbit
  | n + 1, k, st =>
    !st.stInputfile.eofbit && stuckAfter mem gMemLimit n (k + 1) (splitStep (mem k) gMemLimit st)

/-- The minimum that `main` reports on standard output when it refuses the budget: the
startup footprint plus one.  The other paths of `main` report no minimum. -/
def reportedMinimum (argc : Nat) (input : Option (List Char))
    (gMemLimit startFootprint : Nat) : Option Nat :=
  if argc < 4 then none
  else
    match input with
    | none => none
    | some _ => if gMemLimit ≤ startFootprint then some (startFootprint + 1) else none

/-- The state of `splitInput` when pass `n` of its loop starts, the loop test aside. -/
def splitRun (mem : Nat → Nat) (gMemLimit : Nat) (input : List Char) : Nat → SplitState
  | 0 => splitInit input
  | n + 1 => splitStep (mem n) gMemLimit (splitRun mem gMemLimit input n)

/-- The bytes that the admission check counts for a batch: `sizeof(string)` plus the length,
for every line of the batch. -/
def batchBytes (v : List Line) : Nat :=
  (v.map (fun l => sizeofString + l.length)).sum

/-- The first line of the run with index `i`, when that run exists and holds a line. -/
def firstLine (runs : List (List Line)) (i : Nat) : Option Line :=
  (runs[i]?).bind List.head?

/-- Invariant of the first scan of `writeOutput` over the temporary files that hold `runs`,
after the files `temp_0 .. temp_<k-1>`: the current min string is the first line of the
file `szMinFilename`, which is among the files seen, and no first line seen is less. -/
structure ScanInv (runs : List (List Line)) (k : Nat) (st : MergeState) : Prop where
  fs_eq : st.fs = runsFS runs
  idx : st.lOtherIdx ≠ st.lMinIdx
  file : st.arFilenumber st.lMinIdx = st.szMinFilename
  lt : st.szMinFilename < k
  head : firstLine runs st.szMinFilename = some (st.arLines st.lMinIdx)
  le : ∀ i, i < k → ∀ l, firstLine runs i = some l → st.arLines st.lMinIdx ≤ l

/-- The run `temp_<i>` holds the batch `b` as `sortWriteSlice` persists it: the file is its
lines written one after the other, the lines are in non-decreasing order, none of them is
empty, and they are a rearrangement of the batch. -/
def RunOf (fs : TempFS) (i : Nat) (b : List Line) : Prop :=
  fs i = some (writeLines (runLines fs i)) ∧
  (runLines fs i).Sorted (fun x y => x ≤ y) ∧
  (∀ l ∈ runLines fs i, l ≠ []) ∧
  (runLines fs i).Perm b

/-! ## Lines and streams -/

theorem splitLines_ne_nil (d : List Char) : splitLines d ≠ [] := by
  cases d with
  | nil => simp [splitLines]
  | cons c cs =>
    simp only [splitLines]
    split_ifs
    · simp
    · split <;> simp

theorem splitLines_no_newline (l : List Char) (h : newline ∉ l) : splitLines l = [l] := by
  induction l with
  | nil => rfl
  | cons c cs ih =>
    have hc : c ≠ newline := fun e => h (by simp [e])
    have hcs : newline ∉ cs := fun e => h (by simp [e])
    simp [splitLines, hc, ih hcs]

theorem splitLines_append_newline (l r : List Char) (h : newline ∉ l) :
    splitLines (l ++ newline :: r) = l :: splitLines r := by
  induction l with
  | nil => simp [splitLines]
  | cons c cs ih =>
    have hc : c ≠ newline := fun e => h (by simp [e])
    have hcs : newline ∉ cs := fun e => h (by simp [e])
    simp [splitLines, hc, ih hcs]

theorem not_newline_mem_of_mem_splitLines (d : List Char) :
    ∀ l ∈ splitLines d, newline ∉ l := by
  induction d with
  | nil => simp [splitLines]
  | cons c cs ih =>
    intro l hl
    simp only [splitLines] at hl
    split_ifs at hl with hc
    · rcases List.mem_cons.mp hl with rfl | h'
      · simp
      · exact ih l h'
    · split at hl
      · simp at hl; subst hl; simpa using fun e => hc e.symm
      · rename_i l0 ls heq
        rcases List.mem_cons.mp hl with rfl | h'
        · have := ih l0 (by rw [heq]; simp)
          simp only [List.mem_cons, not_or]
          exact ⟨fun e => hc e.symm, this⟩
        · exact ih l (by rw [heq]; simp [h'])

theorem takeWhile_cases (rest : List Char) :
    newline ∉ rest.takeWhile (fun c => c != newline) ∧
    ((rest.takeWhile (fun c => c != newline)).length < rest.length →
      ∃ r, rest = rest.takeWhile (fun c => c != newline) ++ newline :: r) ∧
    (¬ (rest.takeWhile (fun c => c != newline)).length < rest.length →
      rest = rest.takeWhile (fun c => c != newline)) := by
  induction rest with
  | nil => simp
  | cons c cs ih =>
    by_cases hc : c = newline
    · subst hc
      simp
    · obtain ⟨h1, h2, h3⟩ := ih
      have hb : (c != newline) = true := by simpa using hc
      simp only [List.takeWhile_cons, hb, if_true, List.length_cons, List.mem_cons, not_or,
        List.cons_append, List.cons.injEq, true_and, Nat.add_lt_add_iff_right]
      exact ⟨⟨fun e => hc e.symm, h1⟩, h2, h3⟩

theorem nonEmptyLines_no_newline (l : List Char) (h : newline ∉ l) :
    nonEmptyLines l = if l = [] then [] else [l] := by
  unfold nonEmptyLines
  rw [splitLines_no_newline l h]
  cases l <;> simp

theorem nonEmptyLines_append_newline (l r : List Char) (h : newline ∉ l) :
    nonEmptyLines (l ++ newline :: r) = (if l = [] then [] else [l]) ++ nonEmptyLines r := by
  unfold nonEmptyLines
  rw [splitLines_append_newline l r h]
  cases l <;> simp

theorem mem_nonEmptyLines (d : List Char) (l : Line) (h : l ∈ nonEmptyLines d) :
    l ≠ [] ∧ newline ∉ l := by
  unfold nonEmptyLines at h
  rw [List.mem_filter] at h
  refine ⟨?_, not_newline_mem_of_mem_splitLines d l h.1⟩
  intro e
  subst e
  simp at h

/-- What `getline` does on a good stream: either a separator ends the line, or the line
runs to the end of the file. -/
theorem getline_good (s : IStream) (str : Line) (he : s.eofbit = false)
    (hf : s.failbit = false) :
    newline ∉ (getline s str).2 ∧ (getline s str).1.data = s.data ∧
    ((∃ rest, s.data.drop s.pos = (getline s str).2 ++ newline :: rest ∧
        (getline s str).1.pos = s.pos + (getline s str).2.length + 1 ∧
        (getline s str).1.eofbit = false ∧ (getline s str).1.failbit = false) ∨
      (s.data.drop s.pos = (getline s str).2 ∧
        (getline s str).1.pos = s.pos + (getline s str).2.length ∧
        (getline s str).1.eofbit = true ∧
        (getline s str).1.failbit = (getline s str).2.isEmpty)) := by
  obtain ⟨h1, h2, h3⟩ := takeWhile_cases (s.data.drop s.pos)
  unfold getline
  simp only [he, hf, Bool.or_self, Bool.false_eq_true, if_false]
  split_ifs with hlt
  · obtain ⟨r, hr⟩ := h2 hlt
    exact ⟨h1, rfl, Or.inl ⟨r, hr, rfl, rfl, rfl⟩⟩
  · exact ⟨h1, rfl, Or.inr ⟨h3 hlt, rfl, rfl, rfl⟩⟩

/-- A stuck stream stays stuck through `getline`. -/
theorem getline_stuck (s : IStream) (str : Line) (h : Stuck s) :
    (getline s str) = ({ s with failbit := true }, str) := by
  unfold getline
  simp [h.2]

theorem splitStep_stuck (F lim : Nat) (st : SplitState) (h : Stuck st.stInputfile) :
    Stuck (splitStep F lim st).stInputfile := by
  unfold splitStep
  rw [getline_stuck _ _ h]
  obtain ⟨h1, h2⟩ := h
  simp only []
  split_ifs <;> simp [Stuck, seekgBack, h1]

theorem sortWriteSlice_batches (fs : TempFS) (batches : List (List Line)) (v : List Line)
    (n : Nat) (hn : n = batches.length)
    (hfs : ∀ i, fs i = (batches[i]?).map (fun b => writeLines (sortLines b))) (i : Nat) :
    sortWriteSlice fs v n i =
      ((batches ++ [v])[i]?).map (fun b => writeLines (sortLines b)) := by
  unfold sortWriteSlice
  rw [Function.update_apply]
  split_ifs with h
  · subst h; subst hn
    simp
  · rw [hfs i]
    rcases Nat.lt_or_gt_of_ne h with hlt | hgt
    · rw [List.getElem?_append_left (by omega)]
    · rw [List.getElem?_eq_none (by omega), List.getElem?_eq_none (by simp; omega)]

theorem splitStep_inv (F lim : Nat) (input : List Char) (st : SplitState)
    (batches : List (List Line)) (hinv : SplitInv input st batches)
    (he : st.stInputfile.eofbit = false) :
    Stuck (splitStep F lim st).stInputfile ∨
      ∃ b, SplitInv input (splitStep F lim st) b := by
  obtain ⟨⟨pending, ⟨hdata, hcase⟩, hseq⟩, hfiles, hfs, htotal⟩ := hinv
  rcases hcase with ⟨_, hf, hpos, hpend, hK⟩ | ⟨he', _⟩
  swap
  · rw [he] at he'; cases he'
  obtain ⟨hnl, hd, hread⟩ := getline_good st.stInputfile st.szCurrentLine he hf
  have hflush := sortWriteSlice_batches st.fs batches st.vLines st.iTotalFiles hfiles hfs
  unfold splitStep
  generalize getline st.stInputfile st.szCurrentLine = r at hnl hd hread ⊢
  obtain ⟨s1, line⟩ := r
  simp only at hnl hd hread ⊢
  rw [hdata] at hread hd
  rcases hread with ⟨rest, hdrop, hp1, he1, hf1⟩ | ⟨hdrop, hp1, he1, hf1⟩
  · -- a separator ends the line
    have hlen : st.stInputfile.pos + line.length + 1 ≤ input.length := by
      have := congrArg List.length hdrop
      simp at this
      omega
    have hrest : input.drop (st.stInputfile.pos + line.length + 1) = rest := by
      have : input.drop (st.stInputfile.pos + line.length + 1) =
          (input.drop st.stInputfile.pos).drop (line.length + 1) := by
        rw [List.drop_drop]; congr 1
      rw [this, hdrop]
      have : line ++ newline :: rest = (line ++ [newline]) ++ rest := by simp
      rw [this, show line.length + 1 = (line ++ [newline]).length by simp, List.drop_left]
    have hprev : input.drop (st.stInputfile.pos + line.length + 1 - 1) =
        newline :: input.drop (st.stInputfile.pos + line.length + 1) := by
      have : input.drop (st.stInputfile.pos + line.length + 1 - 1) =
          (input.drop st.stInputfile.pos).drop line.length := by
        rw [List.drop_drop]; congr 1
      rw [this, hdrop, hrest, List.drop_left]
    have hpend' : pending = (if line = [] then [] else [line]) ++ nonEmptyLines rest := by
      rw [hpend, hdrop, nonEmptyLines_append_newline line rest hnl]
    have hgood : StreamAt input s1 (nonEmptyLines rest) :=
      ⟨hd, Or.inl ⟨he1, hf1, by rw [hp1]; exact hlen, by rw [hp1, hrest],
        by rw [hp1]; exact fun _ _ => hprev⟩⟩
    split_ifs with hadm hpos'
    · right
      have hne : line ≠ [] := by
        intro e; simp [e] at hpos'
      refine ⟨batches, ⟨nonEmptyLines rest, hgood, ?_⟩, hfiles, hfs, ?_⟩
      · rw [← hseq, hpend']; simp [hne]
      · simp only [htotal, List.length_append, List.length_cons, List.length_nil]
        omega
    · right
      have hnil : line = [] := by
        cases line with
        | nil => rfl
        | cons c cs => simp at hpos'
      refine ⟨batches, ⟨nonEmptyLines rest, hgood, ?_⟩, hfiles, hfs, htotal⟩
      rw [← hseq, hpend']; simp [hnil]
    · right
      refine ⟨batches ++ [st.vLines], ⟨pending, ⟨?_, Or.inl ⟨?_, ?_, ?_, ?_, ?_⟩⟩, ?_⟩, ?_, hflush, ?_⟩
      · simp [seekgBack, hf1, hp1]; exact hd
      · simp [seekgBack, hf1, hp1]
      · simp [seekgBack, hf1, hp1]
      · simp [seekgBack, hf1, hp1]; omega
      · simp [seekgBack, hf1, hp1]; exact hpend
      · simp [seekgBack, hf1, hp1]; exact hK
      · simp [← hseq]
      · simp [hfiles]
      · simp [htotal]
  · -- the line runs to the end of the file
    have hpend' : pending = if line = [] then [] else [line] := by
      rw [hpend, hdrop, nonEmptyLines_no_newline line hnl]
    have hdone : ∀ p, p = ([] : List Line) → StreamAt input s1 p :=
      fun p hp => ⟨hd, Or.inr ⟨he1, hp⟩⟩
    split_ifs with hadm hpos'
    · right
      have hne : line ≠ [] := by
        intro e; simp [e] at hpos'
      refine ⟨batches, ⟨[], hdone _ rfl, ?_⟩, hfiles, hfs, ?_⟩
      · rw [← hseq, hpend']; simp [hne]
      · simp only [htotal, List.length_append, List.length_cons, List.length_nil]
        omega
    · right
      have hnil : line = [] := by
        cases line with
        | nil => rfl
        | cons c cs => simp at hpos'
      refine ⟨batches, ⟨[], hdone _ rfl, ?_⟩, hfiles, hfs, htotal⟩
      rw [← hseq, hpend']; simp [hnil]
    · by_cases hstuck : s1.failbit = true
      · left
        simp [Stuck, seekgBack, hstuck]
      · by_cases hback : line.length + 1 ≤ s1.pos
        · right
          have hp0 : 1 ≤ st.stInputfile.pos := by omega
          have hprev := hK hp0 (by rw [hdrop]; exact hnl)
          have hposlen : st.stInputfile.pos ≤ input.length := hpos
          refine ⟨batches ++ [st.vLines], ⟨pending, ⟨?_, Or.inl ⟨?_, ?_, ?_, ?_, ?_⟩⟩, ?_⟩, ?_, hflush, ?_⟩
          · simp [seekgBack, hstuck, hback]; exact hd
          · simp [seekgBack, hstuck, hback]
          · simp [seekgBack, hstuck, hback]
          · simp [seekgBack, hstuck, hback]; omega
          · simp only [seekgBack, hstuck, hback, if_true, Bool.false_eq_true, if_false]
            rw [hp1, show st.stInputfile.pos + line.length - (line.length + 1) =
              st.stInputfile.pos - 1 by omega, hprev, hpend]
            have := nonEmptyLines_append_newline [] (input.drop st.stInputfile.pos) (by simp)
            simpa using this.symm
          · simp only [seekgBack, hstuck, hback, if_true, Bool.false_eq_true, if_false]
            rw [hp1, show st.stInputfile.pos + line.length - (line.length + 1) =
              st.stInputfile.pos - 1 by omega]
            intro _ hno
            rw [hprev] at hno
            simp at hno
          · simp [← hseq]
          · simp [hfiles]
          · simp [htotal]
        · left
          simp [Stuck, seekgBack, hstuck, hback]

theorem splitLoop_stuck (mem : Nat → Nat) (lim : Nat) :
    ∀ (fuel k : Nat) (st : SplitState), Stuck st.stInputfile →
      splitLoop mem lim fuel k st = none := by
  intro fuel
  induction fuel with
  | zero => intro k st h; simp [splitLoop, h.1]
  | succ n ih =>
    intro k st h
    simp only [splitLoop, h.1, Bool.false_eq_true, if_false]
    exact ih (k + 1) _ (splitStep_stuck _ _ _ h)

theorem splitLoop_inv (mem : Nat → Nat) (lim : Nat) (input : List Char) :
    ∀ (fuel k : Nat) (st : SplitState) (b : List (List Line)), SplitInv input st b →
      ∀ st', splitLoop mem lim fuel k st = some st' →
        st'.stInputfile.eofbit = true ∧ ∃ b', SplitInv input st' b' := by
  intro fuel
  induction fuel with
  | zero =>
    intro k st b hinv st' h
    simp only [splitLoop] at h
    split_ifs at h with he
    cases h
    exact ⟨he, b, hinv⟩
  | succ n ih =>
    intro k st b hinv st' h
    simp only [splitLoop] at h
    split_ifs at h with he
    · cases h
      exact ⟨he, b, hinv⟩
    · have he' : st.stInputfile.eofbit = false := by simpa using he
      rcases splitStep_inv (mem k) lim input st b hinv he' with hs | ⟨b1, hb1⟩
      · rw [splitLoop_stuck mem lim n (k + 1) _ hs] at h
        cases h
      · exact ih (k + 1) _ b1 hb1 st' h

theorem splitInit_inv (input : List Char) : SplitInv input (splitInit input) [] := by
  refine ⟨⟨nonEmptyLines input, ⟨rfl, Or.inl ⟨rfl, rfl, Nat.zero_le _, rfl, ?_⟩⟩, by simp [splitInit]⟩,
    rfl, fun i => by simp [splitInit, emptyFS], rfl⟩
  intro h
  simp [splitInit, openIn] at h

/-- The slices of `splitInput`: when the function returns, its temporary files are the
sorted slices `batches`, consecutive segments of the non-empty lines of the input. -/
theorem splitInput_batches (mem : Nat → Nat) (lim fuel : Nat) (input : List Char)
    (r : SplitResult) (h : splitInput mem lim fuel input = some r) :
    ∃ batches : List (List Line),
      r.iTotalFiles = batches.length ∧
      (∀ i, r.fs i = (batches[i]?).map (fun b => writeLines (sortLines b))) ∧
      batches.flatten = nonEmptyLines input ∧
      r.lTotalLines = (nonEmptyLines input).length := by
  unfold splitInput at h
  rw [Option.map_eq_some'] at h
  obtain ⟨st, hst, hr⟩ := h
  obtain ⟨he, b, ⟨pending, ⟨_, hcase⟩, hseq⟩, hfiles, hfs, htotal⟩ :=
    splitLoop_inv mem lim input fuel 0 _ [] (splitInit_inv input) st hst
  have hp : pending = [] := by
    rcases hcase with ⟨he', _⟩ | ⟨_, hp⟩
    · rw [he] at he'; cases he'
    · exact hp
  subst hp
  rw [List.append_nil] at hseq
  subst hr
  unfold splitFinish
  split_ifs with hv
  · refine ⟨b ++ [st.vLines], by simp [hfiles],
      sortWriteSlice_batches st.fs b st.vLines st.iTotalFiles hfiles hfs, by simp [← hseq], ?_⟩
    simp [htotal, ← hseq]
  · have hnil : st.vLines = [] := by
      cases hvl : st.vLines with
      | nil => rfl
      | cons c cs => simp [hvl] at hv
    refine ⟨b, hfiles, hfs, by simp [← hseq, hnil], ?_⟩
    simp [htotal, ← hseq]

theorem splitLines_writeLines (ls : List Line) (h : ∀ l ∈ ls, newline ∉ l) :
    splitLines (writeLines ls) = ls ++ [[]] := by
  induction ls with
  | nil => rfl
  | cons l ls ih =>
    simp only [writeLines]
    rw [splitLines_append_newline l _ (h l (by simp)), ih (fun x hx => h x (by simp [hx]))]
    rfl

/-- Reading back a file written line by line gives the lines written. -/
theorem fileLines_writeLines (ls : List Line) (h : ∀ l ∈ ls, newline ∉ l) :
    fileLines (writeLines ls) = ls := by
  unfold fileLines
  rw [splitLines_writeLines ls h]
  simp

theorem sortLines_perm (v : List Line) : (sortLines v).Perm v :=
  List.perm_insertionSort _ v

theorem sortLines_sorted (v : List Line) : (sortLines v).Sorted (fun a b => a ≤ b) :=
  List.sorted_insertionSort _ v

theorem flatten_map_sortLines_perm (batches : List (List Line)) :
    ((batches.map sortLines).flatten).Perm batches.flatten := by
  induction batches with
  | nil => simp
  | cons b bs ih =>
    simp only [List.map_cons, List.flatten_cons]
    exact List.Perm.append (sortLines_perm b) ih

/-- The lines of the runs, read back from the temporary files that hold the sorted slices
`batches`. -/
theorem allRunLines_batches (fs : TempFS) (batches : List (List Line))
    (hnl : ∀ b ∈ batches, ∀ l ∈ b, newline ∉ l)
    (hfs : ∀ i, fs i = (batches[i]?).map (fun b => writeLines (sortLines b))) :
    (List.range batches.length).map (runLines fs) = batches.map sortLines := by
  apply List.ext_getElem
  · simp
  · intro i h1 h2
    have hi : i < batches.length := by simpa using h1
    simp only [List.getElem_map, List.getElem_range]
    unfold runLines
    rw [hfs i, List.getElem?_eq_getElem hi]
    simp only [Option.map_some']
    apply fileLines_writeLines
    intro l hl
    exact hnl _ (List.getElem_mem hi) l ((sortLines_perm _).mem_iff.mp hl)

/-! ## Fuel -/

theorem splitLoop_mono (mem : Nat → Nat) (lim : Nat) :
    ∀ (fuel k : Nat) (st st' : SplitState), splitLoop mem lim fuel k st = some st' →
      ∀ fuel', fuel ≤ fuel' → splitLoop mem lim fuel' k st = some st' := by
  intro fuel
  induction fuel with
  | zero =>
    intro k st st' h fuel' _
    simp only [splitLoop] at h
    split_ifs at h with he
    cases fuel' <;> simp [splitLoop, he, h]
  | succ n ih =>
    intro k st st' h fuel' hle
    obtain ⟨m, rfl⟩ : ∃ m, fuel' = m + 1 := ⟨fuel' - 1, by omega⟩
    simp only [splitLoop] at h ⊢
    split_ifs at h ⊢ with he
    · exact h
    · exact ih (k + 1) _ st' h m (by omega)

theorem splitInput_mono (mem : Nat → Nat) (lim fuel fuel' : Nat) (input : List Char)
    (r : SplitResult) (h : splitInput mem lim fuel input = some r) (hle : fuel ≤ fuel') :
    splitInput mem lim fuel' input = some r := by
  unfold splitInput at h ⊢
  rw [Option.map_eq_some'] at h ⊢
  obtain ⟨st, hst, hr⟩ := h
  exact ⟨st, splitLoop_mono mem lim fuel 0 _ st hst fuel' hle, hr⟩

theorem discardLoop_mono :
    ∀ (fuel : Nat) (s : IStream) (line : Line) (out d : List Char),
      discardLoop fuel s line out = some d →
      ∀ fuel', fuel ≤ fuel' → discardLoop fuel' s line out = some d := by
  intro fuel
  induction fuel with
  | zero =>
    intro s line out d h fuel' _
    simp only [discardLoop] at h
    split_ifs at h with he
    cases fuel' <;> simp [discardLoop, he, h]
  | succ n ih =>
    intro s line out d h fuel' hle
    obtain ⟨m, rfl⟩ : ∃ m, fuel' = m + 1 := ⟨fuel' - 1, by omega⟩
    by_cases he : s.eofbit = true
    · simp only [discardLoop, he, if_true] at h ⊢
      exact h
    · simp only [discardLoop, he, if_false] at h ⊢
      exact ih _ _ _ d h m (by omega)

theorem discard1stLine_mono (fuel fuel' : Nat) (fs fs' : TempFS) (name : Nat)
    (h : discard1stLine fuel fs name = some fs') (hle : fuel ≤ fuel') :
    discard1stLine fuel' fs name = some fs' := by
  unfold discard1stLine at h ⊢
  simp only [Option.map_eq_some'] at h ⊢
  obtain ⟨d, hd, hr⟩ := h
  exact ⟨d, discardLoop_mono fuel _ _ _ d hd fuel' hle, hr⟩

theorem mergeIter_mono (fuel fuel' n : Nat) (st st' : MergeState)
    (h : mergeIter fuel n st = some st') (hle : fuel ≤ fuel') :
    mergeIter fuel' n st = some st' := by
  unfold mergeIter at h ⊢
  simp only at h ⊢
  cases hd : discard1stLine fuel (scanFiles n st).fs (scanFiles n st).szMinFilename with
  | none => rw [hd] at h; cases h
  | some fs1 =>
    rw [hd] at h
    rw [discard1stLine_mono fuel fuel' _ fs1 _ hd hle]
    exact h

theorem mergeLoop_mono (fuel fuel' n : Nat) (hle : fuel ≤ fuel') :
    ∀ (k : Nat) (st st' : MergeState), mergeLoop fuel n k st = some st' →
      mergeLoop fuel' n k st = some st' := by
  intro k
  induction k with
  | zero => intro st st' h; exact h
  | succ k ih =>
    intro st st' h
    simp only [mergeLoop, Option.bind_eq_some] at h ⊢
    obtain ⟨st1, h1, h2⟩ := h
    exact ⟨st1, mergeIter_mono fuel fuel' n st st1 h1 hle, ih st1 st' h2⟩

theorem main_mono (argc : Nat) (input : Option (List Char)) (lim F : Nat) (mem : Nat → Nat)
    (g fuel fuel' : Nat) (r : MainResult)
    (h : main argc input lim F mem g fuel = some r) (hle : fuel ≤ fuel') :
    main argc input lim F mem g fuel' = some r := by
  unfold main at h ⊢
  by_cases h1 : argc < 4
  · simp only [h1, if_true] at h ⊢
    exact h
  · simp only [h1, if_false] at h ⊢
    cases input with
    | none => exact h
    | some d =>
      simp only at h ⊢
      by_cases h2 : lim ≤ F
      · simp only [h2, if_true] at h ⊢
        exact h
      · simp only [h2, if_false] at h ⊢
        cases hs : splitInput mem lim fuel d with
        | none => rw [hs] at h; cases h
        | some sr =>
          rw [hs] at h
          rw [splitInput_mono mem lim fuel fuel' d sr hs hle]
          simp only at h ⊢
          cases hw : writeOutput g fuel sr.fs sr.iTotalFiles sr.lTotalLines with
          | none => rw [hw] at h; cases h
          | some m =>
            rw [hw] at h
            have := mergeLoop_mono fuel fuel' sr.iTotalFiles hle sr.lTotalLines _ m hw
            unfold writeOutput
            rw [this]
            exact h

/-- The outcome of a run that returns does not depend on the fuel. -/
theorem main_fuel_unique (argc : Nat) (input : Option (List Char)) (lim F : Nat)
    (mem : Nat → Nat) (g fuel fuel' : Nat) (r r' : MainResult)
    (h : main argc input lim F mem g fuel = some r)
    (h' : main argc input lim F mem g fuel' = some r') : r = r' := by
  have a := main_mono argc input lim F mem g fuel (max fuel fuel') r h (le_max_left _ _)
  have b := main_mono argc input lim F mem g fuel' (max fuel fuel') r' h' (le_max_right _ _)
  rw [a] at b
  exact Option.some.inj b

theorem discardLoop_stuck :
    ∀ (fuel : Nat) (s : IStream) (line : Line) (out : List Char), Stuck s →
      discardLoop fuel s line out = none := by
  intro fuel
  induction fuel with
  | zero => intro s line out h; simp [discardLoop, h.1]
  | succ n ih =>
    intro s line out h
    simp only [discardLoop, h.1, Bool.false_eq_true, if_false]
    rw [getline_stuck s line h]
    exact ih _ _ _ ⟨h.1, rfl⟩

/-- The call `discard1stLine` never returns when the file it names does not exist. -/
theorem discard1stLine_missing (fuel : Nat) (fs : TempFS) (name : Nat) (h : fs name = none) :
    discard1stLine fuel fs name = none := by
  unfold discard1stLine
  have hs : Stuck (openIn (fs name)) := by rw [h]; exact ⟨rfl, rfl⟩
  rw [getline_stuck _ _ hs]
  simp only []
  rw [discardLoop_stuck fuel { openIn (fs name) with failbit := true } [] [] ⟨hs.1, rfl⟩]
  rfl
/-! ## The uninitialised entry of `arFilenumber` -/

theorem scanFile_garbage (st : MergeState) (v i : Nat) (hne : st.lOtherIdx ≠ st.lMinIdx) :
    scanFile { st with arFilenumber := Function.update st.arFilenumber st.lOtherIdx v } i
        = scanFile st i ∨
    (scanFile { st with arFilenumber := Function.update st.arFilenumber st.lOtherIdx v } i
        = { st with arFilenumber := Function.update st.arFilenumber st.lOtherIdx v } ∧
      scanFile st i = st ∧ (i = st.arFilenumber st.lMinIdx ∨ fileSize st.fs i ≤ 0)) := by
  have hmin : Function.update st.arFilenumber st.lOtherIdx v st.lMinIdx
      = st.arFilenumber st.lMinIdx := Function.update_noteq (Ne.symm hne) _ _
  by_cases h1 : i = st.arFilenumber st.lMinIdx
  · right
    simp only [scanFile, hmin, h1, if_true, true_or, and_self]
  · by_cases h2 : fileSize st.fs i ≤ 0
    · right
      simp only [scanFile, hmin, h1, h2, if_true, if_false, or_true, and_self]
    · left
      simp only [scanFile, hmin, h1, h2, if_false, Function.update_idem]

theorem foldl_scanFile_garbage (l : List Nat) :
    ∀ (st : MergeState) (v : Nat), st.lOtherIdx ≠ st.lMinIdx →
      l.foldl scanFile { st with arFilenumber := Function.update st.arFilenumber st.lOtherIdx v }
          = l.foldl scanFile st ∨
      (l.foldl scanFile st = st ∧
        ∀ i ∈ l, i = st.arFilenumber st.lMinIdx ∨ fileSize st.fs i ≤ 0) := by
  induction l with
  | nil => intro st v _; right; simp
  | cons i l ih =>
    intro st v hne
    simp only [List.foldl_cons]
    rcases scanFile_garbage st v i hne with h | ⟨h1, h2, h3⟩
    · left; rw [h]
    · rw [h1, h2]
      rcases ih st v hne with h | ⟨h4, h5⟩
      · left; exact h
      · right
        refine ⟨h4, ?_⟩
        intro j hj
        rcases List.mem_cons.mp hj with rfl | hj'
        · exact h3
        · exact h5 j hj'

theorem mergeInit_garbage (g g' : Nat) (fs : TempFS) :
    mergeInit g' fs = { mergeInit g fs with
      arFilenumber := Function.update (mergeInit g fs).arFilenumber (mergeInit g fs).lOtherIdx g' } := by
  unfold mergeInit
  simp only [MergeState.mk.injEq, true_and, and_true]
  funext i
  by_cases hi : i = 0
  · subst hi; simp [Function.update]
  · have : i = 1 := by omega
    subst this; simp [Function.update]

/-- The first scan of the temporary files overwrites the uninitialised entry as soon as it
reads a file other than `temp_0`. -/
theorem scanFiles_mergeInit_garbage (g g' : Nat) (fs : TempFS) (n i : Nat) (hi : i < n)
    (h0 : i ≠ 0) (hsz : fileSize fs i ≠ 0) :
    scanFiles n (mergeInit g fs) = scanFiles n (mergeInit g' fs) := by
  unfold scanFiles
  rw [mergeInit_garbage g g' fs]
  rcases foldl_scanFile_garbage (List.range n) (mergeInit g fs) g'
      (show (1 : Fin 2) ≠ 0 by decide) with h | ⟨_, h⟩
  · exact h.symm
  · exfalso
    rcases h i (List.mem_range.mpr hi) with h1 | h2
    · exact h0 h1
    · exact hsz (Nat.le_zero.mp h2)

theorem writeOutput_garbage (g g' fuel : Nat) (fs : TempFS) (n L i : Nat) (hi : i < n)
    (h0 : i ≠ 0) (hsz : fileSize fs i ≠ 0) (hL : 0 < L) :
    writeOutput g fuel fs n L = writeOutput g' fuel fs n L := by
  obtain ⟨k, rfl⟩ : ∃ k, L = k + 1 := ⟨L - 1, by omega⟩
  unfold writeOutput
  simp only [mergeLoop, mergeIter]
  rw [scanFiles_mergeInit_garbage g g' fs n i hi h0 hsz]

/-- A run of `main` whose phase 1 leaves a non-empty run `temp_1` does not depend on the
uninitialised entry. -/
theorem main_garbage (argc : Nat) (input : Option (List Char)) (lim F : Nat)
    (mem : Nat → Nat) (g g' fuel : Nat)
    (h : ∀ d r, input = some d → splitInput mem lim fuel d = some r →
      0 < r.lTotalLines ∧ 1 < r.iTotalFiles ∧ fileSize r.fs 1 ≠ 0) :
    main argc input lim F mem g fuel = main argc input lim F mem g' fuel := by
  unfold main
  cases input with
  | none => rfl
  | some d =>
    simp only
    cases hs : splitInput mem lim fuel d with
    | none => rfl
    | some r =>
      obtain ⟨hL, hN, hsz⟩ := h d r rfl hs
      simp only
      rw [writeOutput_garbage g g' fuel r.fs r.iTotalFiles r.lTotalLines 1 hN (by decide) hsz hL]

/-! ## Constant footprint -/

theorem splitStep_shift (c F lim : Nat) (st : SplitState) :
    splitStep (c + F) (c + lim) st = splitStep F lim st := by
  unfold splitStep
  have : ∀ x, (c + F + st.lCurrentSize + sizeofString + x ≤ c + lim) ↔
      (F + st.lCurrentSize + sizeofString + x ≤ lim) := by
    intro x; constructor <;> intro h <;> omega
  simp only [this]

theorem splitLoop_shift (c lim : Nat) (mem : Nat → Nat) :
    ∀ (fuel k : Nat) (st : SplitState),
      splitLoop (fun j => c + mem j) (c + lim) fuel k st = splitLoop mem lim fuel k st := by
  intro fuel
  induction fuel with
  | zero => intro k st; rfl
  | succ n ih =>
    intro k st
    simp only [splitLoop, splitStep_shift, ih]

/-- Under a constant footprint only the distance between budget and footprint matters. -/
theorem main_shift (argc : Nat) (input : Option (List Char)) (c lim g fuel : Nat) :
    main argc input (c + lim) c (fun _ => c) g fuel
      = main argc input lim 0 (fun _ => 0) g fuel := by
  unfold main splitInput
  have h := splitLoop_shift c lim (fun _ => 0)
  simp only [Nat.add_zero] at h
  simp only [h, Nat.le_zero_eq, add_le_iff_nonpos_right]

theorem splitInput_shift (c lim fuel : Nat) (input : List Char) :
    splitInput (fun _ => c) (c + lim) fuel input = splitInput (fun _ => 0) lim fuel input := by
  unfold splitInput
  have h := splitLoop_shift c lim (fun _ => 0)
  simp only [Nat.add_zero] at h
  rw [h]

/-- The condition of `main_garbage`, in a form that a concrete run settles by evaluation. -/
theorem main_garbage_of_check (argc : Nat) (d : List Char) (lim F : Nat)
    (mem : Nat → Nat) (g g' fuel : Nat)
    (hchk : (splitInput mem lim fuel d).all (fun r =>
      decide (0 < r.lTotalLines) && decide (1 < r.iTotalFiles) &&
        decide (fileSize r.fs 1 ≠ 0)) = true) :
    main argc (some d) lim F mem g fuel = main argc (some d) lim F mem g' fuel := by
  apply main_garbage
  intro d' r hd hr
  cases hd
  rw [hr] at hchk
  simpa [Option.all, and_assoc] using hchk

/-! ## A single run -/

theorem scanFile_min_nil (st : MergeState) (i : Nat) (h : st.arLines st.lMinIdx = [])
    (hne : st.lOtherIdx ≠ st.lMinIdx) :
    (scanFile st i).fs = st.fs ∧ (scanFile st i).szMinFilename = st.szMinFilename := by
  unfold scanFile
  have hnot : ∀ l : Line, ¬ l < ([] : Line) := fun l => List.Lex.not_nil_right _ l
  by_cases h1 : i = st.arFilenumber st.lMinIdx
  · simp only [h1, if_true, and_self]
  · by_cases h2 : fileSize st.fs i ≤ 0
    · simp only [h1, h2, if_true, if_false, and_self]
    · simp only [h1, h2, if_false, Function.update_same, Function.update_noteq (Ne.symm hne), h,
        hnot, and_self]

theorem scanFiles_one (st : MergeState) : scanFiles 1 st = scanFile st 0 := by
  simp [scanFiles, List.range_succ]

theorem scanFile_mergeInit_zero (g : Nat) (fs : TempFS) :
    scanFile (mergeInit g fs) 0 = mergeInit g fs := by
  simp [scanFile, mergeInit]

/-- With a single run and at least two lines to write, `writeOutput` does not return when
the uninitialised entry of `arFilenumber` names a file that does not exist: its second pass
calls `discard1stLine` on that file. -/
theorem writeOutput_single_run_hangs (g fuel : Nat) (fs : TempFS) (L : Nat) (hg : g ≠ 0)
    (hmiss : fs g = none) (hL : 2 ≤ L) : writeOutput g fuel fs 1 L = none := by
  obtain ⟨k, rfl⟩ : ∃ k, L = k + 2 := ⟨L - 2, by omega⟩
  unfold writeOutput
  simp only [mergeLoop]
  cases h1 : mergeIter fuel 1 (mergeInit g fs) with
  | none => rfl
  | some st1 =>
    simp only [Option.some_bind]
    have h2 : mergeIter fuel 1 st1 = none := by
      unfold mergeIter at h1
      rw [scanFiles_one, scanFile_mergeInit_zero] at h1
      simp only at h1
      cases hd : discard1stLine fuel (mergeInit g fs).fs (mergeInit g fs).szMinFilename with
      | none => rw [hd] at h1; cases h1
      | some fs1 =>
        rw [hd] at h1
        simp only [Option.some.injEq] at h1
        have hfs1 : fs1 g = none := by
          unfold discard1stLine at hd
          simp only [Option.map_eq_some'] at hd
          obtain ⟨d, _, hd2⟩ := hd
          rw [← hd2]
          simp only [mergeInit]
          rw [Function.update_noteq hg]
          exact hmiss
        subst h1
        unfold mergeIter
        rw [scanFiles_one]
        obtain ⟨e1, e2⟩ := scanFile_min_nil
          { mergeInit g fs with
            output := (mergeInit g fs).output ++
              ((mergeInit g fs).arLines (mergeInit g fs).lMinIdx ++ [newline]),
            lWrittenLines := (mergeInit g fs).lWrittenLines + 1,
            fs := fs1,
            lMinIdx := (mergeInit g fs).lOtherIdx, lOtherIdx := (mergeInit g fs).lMinIdx,
            szMinFilename := (mergeInit g fs).arFilenumber (mergeInit g fs).lOtherIdx } 0
          (by simp [mergeInit]) (by simp [mergeInit])
        simp only at e1 e2 ⊢
        rw [e1, e2]
        have : (mergeInit g fs).arFilenumber (mergeInit g fs).lOtherIdx = g := by
          simp [mergeInit]
        rw [this, discard1stLine_missing fuel fs1 g hfs1]
    rw [h2]
    rfl

theorem splitInput_fuel_unique (mem : Nat → Nat) (lim fuel fuel' : Nat) (input : List Char)
    (r r' : SplitResult) (h : splitInput mem lim fuel input = some r)
    (h' : splitInput mem lim fuel' input = some r') : r = r' := by
  have a := splitInput_mono mem lim fuel (max fuel fuel') input r h (le_max_left _ _)
  have b := splitInput_mono mem lim fuel' (max fuel fuel') input r' h' (le_max_right _ _)
  rw [a] at b
  exact Option.some.inj b

/-- A run of `main` whose phase 1 leaves a single run of at least two lines does not
complete when the uninitialised entry of `arFilenumber` is not zero. -/
theorem main_single_run_hangs (argc : Nat) (d : List Char) (lim F : Nat) (mem : Nat → Nat)
    (g fuel0 : Nat) (hg : g ≠ 0)
    (hchk : (splitInput mem lim fuel0 d).all (fun r =>
      decide (r.iTotalFiles = 1) && decide (2 ≤ r.lTotalLines)) = true)
    (hsome : (splitInput mem lim fuel0 d).isSome = true) (fuel : Nat) :
    outputOf (main argc (some d) lim F mem g fuel) = none := by
  unfold main
  by_cases h1 : argc < 4
  · simp [h1, outputOf]
  · by_cases h2 : lim ≤ F
    · simp [h1, h2, outputOf]
    · simp only [h1, h2, if_false]
      cases hs : splitInput mem lim fuel d with
      | none => rfl
      | some r =>
        obtain ⟨r0, hr0⟩ := Option.isSome_iff_exists.mp hsome
        have : r0 = r := splitInput_fuel_unique mem lim fuel0 fuel d r0 r hr0 hs
        subst this
        rw [hr0] at hchk
        simp only [Option.all, Bool.and_eq_true, decide_eq_true_eq] at hchk
        obtain ⟨batches, hN, hfs, _, _⟩ := splitInput_batches mem lim fuel d r0 hs
        have hmiss : r0.fs g = none := by
          rw [hfs g, List.getElem?_eq_none (by omega)]
          rfl
        simp only
        rw [hchk.1, writeOutput_single_run_hangs g fuel r0.fs r0.lTotalLines hg hmiss hchk.2]
        rfl

/-- The output of a run of `main`, for every fuel and every value of the uninitialised
entry, when phase 1 leaves a single run of at least two lines: the run either does not
complete or writes what it writes when the entry is zero. -/
theorem main_single_run (argc : Nat) (d : List Char) (lim F : Nat) (mem : Nat → Nat)
    (fuel0 : Nat) (X : List Char)
    (hchk : (splitInput mem lim fuel0 d).all (fun r =>
      decide (r.iTotalFiles = 1) && decide (2 ≤ r.lTotalLines)) = true)
    (hsome : (splitInput mem lim fuel0 d).isSome = true)
    (h0 : outputOf (main argc (some d) lim F mem 0 fuel0) = some X) (g fuel : Nat) :
    outputOf (main argc (some d) lim F mem g fuel) = none ∨
      outputOf (main argc (some d) lim F mem g fuel) = some X := by
  by_cases hg : g = 0
  · subst hg
    cases hm : main argc (some d) lim F mem 0 fuel with
    | none => left; rfl
    | some r =>
      right
      cases hm0 : main argc (some d) lim F mem 0 fuel0 with
      | none => rw [hm0] at h0; cases h0
      | some r0 =>
        have := main_fuel_unique argc (some d) lim F mem 0 fuel fuel0 r r0 hm hm0
        rw [this, ← hm0]
        exact h0
  · left
    exact main_single_run_hangs argc d lim F mem g fuel0 hg hchk hsome fuel

/-! ## A line that does not fit an empty batch -/

theorem takeWhile_line (l rest : List Char) (hnl : newline ∉ l) :
    (l ++ newline :: rest).takeWhile (fun c => c != newline) = l := by
  induction l with
  | nil => simp
  | cons c cs ih =>
    have hc : c ≠ newline := fun e => hnl (by simp [e])
    have hcs : newline ∉ cs := fun e => hnl (by simp [e])
    have hb : (c != newline) = true := by simpa using hc
    simp only [List.cons_append, List.takeWhile_cons, hb, if_true, ih hcs]

/-- The call `getline` on a good stream that stands before a line ended by a separator. -/
theorem getline_line (s : IStream) (str l rest : List Char) (he : s.eofbit = false)
    (hf : s.failbit = false) (hdrop : s.data.drop s.pos = l ++ newline :: rest)
    (hnl : newline ∉ l) :
    getline s str = ({ s with pos := s.pos + l.length + 1 }, l) := by
  unfold getline
  simp only [he, hf, Bool.or_self, Bool.false_eq_true, if_false, hdrop, takeWhile_line l rest hnl]
  simp

/-- A pass of the loop of `splitInput` that meets, with an empty batch, a line failing the
admission check: an empty slice is written out and the stream is put back before the
line. -/
theorem splitStep_oversize (F lim : Nat) (st : SplitState) (l rest : List Char)
    (he : st.stInputfile.eofbit = false) (hf : st.stInputfile.failbit = false)
    (hdrop : st.stInputfile.data.drop st.stInputfile.pos = l ++ newline :: rest)
    (hnl : newline ∉ l) (hcur : st.lCurrentSize = 0)
    (hbig : lim < F + sizeofString + l.length) :
    splitStep F lim st =
      { stInputfile := st.stInputfile, szCurrentLine := l, vLines := [], lCurrentSize := 0,
        lTotalLines := st.lTotalLines, iTotalFiles := st.iTotalFiles + 1,
        fs := sortWriteSlice st.fs st.vLines st.iTotalFiles } := by
  obtain ⟨⟨d, p, e, f⟩, cl, v, cur, tot, nf, fs⟩ := st
  simp only at he hf hdrop hcur
  subst he hf hcur
  unfold splitStep
  rw [getline_line _ _ l rest rfl rfl hdrop hnl]
  have hrej : ¬ (F + 0 + sizeofString + l.length ≤ lim) := by omega
  have hle : l.length + 1 ≤ p + l.length + 1 := by omega
  have hsub : p + l.length + 1 - (l.length + 1) = p := by omega
  simp only [hrej, if_false, seekgBack, Bool.false_eq_true, hle, if_true, hsub]

/-- Under a constant footprint, a line that fails the admission check against an empty
batch is met again and again: the loop of `splitInput` does not end. -/
theorem splitLoop_oversize (F lim : Nat) (l rest : List Char) (hnl : newline ∉ l)
    (hbig : lim < F + sizeofString + l.length) :
    ∀ (fuel k : Nat) (st : SplitState), st.stInputfile.eofbit = false →
      st.stInputfile.failbit = false →
      st.stInputfile.data.drop st.stInputfile.pos = l ++ newline :: rest →
      st.lCurrentSize = 0 → splitLoop (fun _ => F) lim fuel k st = none := by
  intro fuel
  induction fuel with
  | zero => intro k st he _ _ _; simp [splitLoop, he]
  | succ n ih =>
    intro k st he hf hdrop hcur
    simp only [splitLoop, he, Bool.false_eq_true, if_false]
    rw [splitStep_oversize F lim st l rest he hf hdrop hnl hcur hbig]
    exact ih (k + 1) _ he hf hdrop rfl

/-- The state of `splitInput` after `n` passes of its loop over an input whose first line
fails the admission check under a constant footprint. -/
theorem iterate_splitStep_oversize (F lim : Nat) (l rest : List Char) (hnl : newline ∉ l)
    (hbig : lim < F + sizeofString + l.length) (n : Nat) :
    ((splitStep F lim)^[n] (splitInit (l ++ newline :: rest))).stInputfile
      = openIn (some (l ++ newline :: rest)) ∧
    ((splitStep F lim)^[n] (splitInit (l ++ newline :: rest))).vLines = [] ∧
    ((splitStep F lim)^[n] (splitInit (l ++ newline :: rest))).lCurrentSize = 0 ∧
    ((splitStep F lim)^[n] (splitInit (l ++ newline :: rest))).lTotalLines = 0 ∧
    ((splitStep F lim)^[n] (splitInit (l ++ newline :: rest))).iTotalFiles = n ∧
    ∀ i, ((splitStep F lim)^[n] (splitInit (l ++ newline :: rest))).fs i
      = if i < n then some [] else none := by
  induction n with
  | zero => exact ⟨rfl, rfl, rfl, rfl, rfl, fun i => rfl⟩
  | succ m ih =>
    obtain ⟨h1, h2, h3, h4, h5, h6⟩ := ih
    rw [Function.iterate_succ_apply']
    have hstep := splitStep_oversize F lim
      ((splitStep F lim)^[m] (splitInit (l ++ newline :: rest)))
      l rest (by rw [h1]; rfl) (by rw [h1]; rfl) (by rw [h1]; rfl) hnl h3 hbig
    rw [hstep, h2, h5]
    refine ⟨h1, rfl, rfl, h4, rfl, ?_⟩
    intro i
    simp only [sortWriteSlice, Function.update_apply]
    by_cases hi : i = m
    · subst hi
      simp [sortLines, writeLines]
    · rw [if_neg hi, h6 i]
      by_cases hlt : i < m
      · simp [hlt, Nat.lt_succ_of_lt hlt]
      · have : ¬ i < m + 1 := by omega
        simp [hlt, this]

theorem batches_no_newline (input : List Char) (batches : List (List Line))
    (hflat : batches.flatten = nonEmptyLines input) :
    ∀ b ∈ batches, ∀ l ∈ b, l ≠ [] ∧ newline ∉ l := by
  intro b hb l hl
  apply mem_nonEmptyLines input
  rw [← hflat]
  exact List.mem_flatten.mpr ⟨b, hb, hl⟩

/-! ## Budgets with the same admissions -/

theorem splitStep_congr (F lim lim' : Nat) (st : SplitState)
    (h : admits F lim st = admits F lim' st) : splitStep F lim st = splitStep F lim' st := by
  unfold admits at h
  unfold splitStep
  by_cases h1 : F + st.lCurrentSize + sizeofString +
      (getline st.stInputfile st.szCurrentLine).2.length ≤ lim
  · have h2 : F + st.lCurrentSize + sizeofString +
        (getline st.stInputfile st.szCurrentLine).2.length ≤ lim' := by
      simpa [h1] using h
    simp only [h1, h2, if_true]
  · have h2 : ¬ F + st.lCurrentSize + sizeofString +
        (getline st.stInputfile st.szCurrentLine).2.length ≤ lim' := by
      simpa [h1] using h
    simp only [h1, h2, if_false]

theorem admits_between (F lo hi b : Nat) (st : SplitState) (hlo : lo ≤ b) (hhi : b ≤ hi)
    (h : admits F lo st = admits F hi st) : admits F b st = admits F lo st := by
  unfold admits at h ⊢
  by_cases h1 : F + st.lCurrentSize + sizeofString +
      (getline st.stInputfile st.szCurrentLine).2.length ≤ lo
  · have h2 : F + st.lCurrentSize + sizeofString +
        (getline st.stInputfile st.szCurrentLine).2.length ≤ b := le_trans h1 hlo
    simp [h1, h2]
  · have h3 : ¬ F + st.lCurrentSize + sizeofString +
        (getline st.stInputfile st.szCurrentLine).2.length ≤ hi := by
      simpa [h1] using h
    have h2 : ¬ F + st.lCurrentSize + sizeofString +
        (getline st.stInputfile st.szCurrentLine).2.length ≤ b := fun hb => h3 (le_trans hb hhi)
    simp [h1, h2]

/-- Two budgets between which no admission check changes its outcome lead `splitInput`
through the same passes, and so does every budget between them. -/
theorem splitLoop_between (mem : Nat → Nat) (lo hi b : Nat) (hlo : lo ≤ b) (hhi : b ≤ hi) :
    ∀ (fuel k : Nat) (st : SplitState), sameAdmission mem lo hi fuel k st = true →
      splitLoop mem b fuel k st = splitLoop mem lo fuel k st := by
  intro fuel
  induction fuel with
  | zero => intro k st _; rfl
  | succ n ih =>
    intro k st h
    simp only [sameAdmission, Bool.or_eq_true, Bool.and_eq_true, beq_iff_eq] at h
    simp only [splitLoop]
    by_cases he : st.stInputfile.eofbit = true
    · simp only [he, if_true]
    · simp only [he, if_false]
      rcases h with h | ⟨h1, h2⟩
      · exact absurd h he
      · rw [splitStep_congr (mem k) b lo st (admits_between (mem k) lo hi b st hlo hhi h1)]
        exact ih (k + 1) _ h2

theorem main_between (argc : Nat) (d : List Char) (lo hi b F : Nat) (mem : Nat → Nat)
    (g fuel : Nat) (hlo : lo ≤ b) (hhi : b ≤ hi) (hF : F < lo)
    (h : sameAdmission mem lo hi fuel 0 (splitInit d) = true) :
    main argc (some d) b F mem g fuel = main argc (some d) lo F mem g fuel := by
  have h0 := splitLoop_between mem lo hi b hlo hhi fuel 0 _ h
  have h1 : ¬ b ≤ F := by omega
  have h2 : ¬ lo ≤ F := by omega
  simp only [main, splitInput, h0, h1, h2, if_false]

theorem splitInput_between (d : List Char) (lo hi b : Nat) (mem : Nat → Nat) (fuel : Nat)
    (hlo : lo ≤ b) (hhi : b ≤ hi) (h : sameAdmission mem lo hi fuel 0 (splitInit d) = true) :
    splitInput mem b fuel d = splitInput mem lo fuel d := by
  unfold splitInput
  rw [splitLoop_between mem lo hi b hlo hhi fuel 0 _ h]

/-! ## A read that is rejected at the end of the file -/

theorem splitLoop_stuckAfter (mem : Nat → Nat) (lim : Nat) :
    ∀ (n k : Nat) (st : SplitState), stuckAfter mem lim n k st = true →
      ∀ fuel, splitLoop mem lim fuel k st = none := by
  intro n
  induction n with
  | zero =>
    intro k st h fuel
    simp only [stuckAfter, Bool.and_eq_true, Bool.not_eq_true'] at h
    exact splitLoop_stuck mem lim fuel k st ⟨h.1, h.2⟩
  | succ n ih =>
    intro k st h fuel
    simp only [stuckAfter, Bool.and_eq_true, Bool.not_eq_true'] at h
    cases fuel with
    | zero => simp [splitLoop, h.1]
    | succ m =>
      simp only [splitLoop, h.1, Bool.false_eq_true, if_false]
      exact ih (k + 1) _ h.2 m

/-! ## The passes of `writeOutput` -/

theorem writeLines_append (a b : List Line) :
    writeLines (a ++ b) = writeLines a ++ writeLines b := by
  induction a with
  | nil => rfl
  | cons l ls ih => simp [writeLines, ih]

theorem scanFile_output (st : MergeState) (i : Nat) :
    (scanFile st i).output = st.output ∧ (scanFile st i).lWrittenLines = st.lWrittenLines := by
  unfold scanFile
  by_cases h1 : i = st.arFilenumber st.lMinIdx
  · simp only [h1, if_true, and_self]
  · by_cases h2 : fileSize st.fs i ≤ 0
    · simp only [h1, h2, if_true, if_false, and_self]
    · simp only [h1, h2, if_false]
      split_ifs <;> exact ⟨rfl, rfl⟩

theorem scanFiles_output (n : Nat) (st : MergeState) :
    (scanFiles n st).output = st.output ∧ (scanFiles n st).lWrittenLines = st.lWrittenLines := by
  unfold scanFiles
  induction n with
  | zero => exact ⟨rfl, rfl⟩
  | succ k ih =>
    rw [List.range_succ, List.foldl_append]
    simp only [List.foldl_cons, List.foldl_nil]
    obtain ⟨h1, h2⟩ := scanFile_output (List.foldl scanFile st (List.range k)) k
    exact ⟨h1.trans ih.1, h2.trans ih.2⟩

/-- Every pass of the main loop of `writeOutput` appends one line and one separator to the
output and counts one line written. -/
theorem mergeLoop_output (fuel N : Nat) :
    ∀ (n : Nat) (st0 st : MergeState), mergeLoop fuel N n st0 = some st →
      st.lWrittenLines = st0.lWrittenLines + n ∧
      ∃ lines : List Line, lines.length = n ∧ st.output = st0.output ++ writeLines lines := by
  intro n
  induction n with
  | zero =>
    intro st0 st h
    simp only [mergeLoop, Option.some.injEq] at h
    subst h
    exact ⟨rfl, [], rfl, by simp [writeLines]⟩
  | succ n ih =>
    intro st0 st h
    simp only [mergeLoop, Option.bind_eq_some] at h
    obtain ⟨st1, h1, h2⟩ := h
    obtain ⟨hw, lines, hlen, hout⟩ := ih st1 st h2
    unfold mergeIter at h1
    simp only at h1
    cases hd : discard1stLine fuel (scanFiles N st0).fs (scanFiles N st0).szMinFilename with
    | none => rw [hd] at h1; cases h1
    | some fs1 =>
      rw [hd] at h1
      simp only [Option.some.injEq] at h1
      subst h1
      obtain ⟨ho, hl⟩ := scanFiles_output N st0
      simp only at hw hout
      refine ⟨by rw [hw, hl]; omega,
        (scanFiles N st0).arLines (scanFiles N st0).lMinIdx :: lines, by simp [hlen], ?_⟩
      rw [hout, ho]
      simp [writeLines]

/-! ## The bytes of a batch -/

theorem batchBytes_append (v : List Line) (l : Line) :
    batchBytes (v ++ [l]) = batchBytes v + (sizeofString + l.length) := by
  simp [batchBytes]

/-! ## `discard1stLine` on a file written line by line -/

theorem discardLoop_eof (fuel : Nat) (s : IStream) (line : Line) (out : List Char)
    (he : s.eofbit = true) : discardLoop fuel s line out = some out := by
  cases fuel <;> simp [discardLoop, he]

theorem getline_at_end (s : IStream) (str : Line) (he : s.eofbit = false)
    (hf : s.failbit = false) (hdrop : s.data.drop s.pos = []) :
    (getline s str).1.eofbit = true ∧ (getline s str).2 = [] := by
  unfold getline
  simp [he, hf, hdrop]

theorem discardLoop_writeLines :
    ∀ (rest : List Line) (pre : List Char) (s : IStream) (line : Line) (out : List Char)
      (fuel : Nat), (∀ l ∈ rest, l ≠ [] ∧ newline ∉ l) → s.data = pre ++ writeLines rest →
      s.pos = pre.length → s.eofbit = false → s.failbit = false → rest.length + 1 ≤ fuel →
      discardLoop fuel s line out = some (out ++ writeLines rest) := by
  intro rest
  induction rest with
  | nil =>
    intro pre s line out fuel _ hdata hpos he hf hfuel
    obtain ⟨m, rfl⟩ : ∃ m, fuel = m + 1 := ⟨fuel - 1, by omega⟩
    have hdrop : s.data.drop s.pos = [] := by
      rw [hdata, hpos]; simp [writeLines]
    obtain ⟨h1, h2⟩ := getline_at_end s line he hf hdrop
    simp only [discardLoop, he, Bool.false_eq_true, if_false, h2, List.length_nil,
      gt_iff_lt, Nat.lt_irrefl, writeLines, List.append_nil]
    exact discardLoop_eof m _ _ out h1
  | cons l ls ih =>
    intro pre s line out fuel hls hdata hpos he hf hfuel
    obtain ⟨m, rfl⟩ : ∃ m, fuel = m + 1 := ⟨fuel - 1, by omega⟩
    have hl := hls l (by simp)
    have hdrop : s.data.drop s.pos = l ++ newline :: writeLines ls := by
      rw [hdata, hpos, List.drop_left]; rfl
    have hlen : l.length > 0 := List.length_pos.mpr hl.1
    simp only [discardLoop, he, Bool.false_eq_true, if_false,
      getline_line s line l (writeLines ls) he hf hdrop hl.2, hlen, if_true]
    have hfuel2 : ls.length + 1 ≤ m := by
      simp only [List.length_cons] at hfuel; omega
    have hrec := ih (pre ++ (l ++ [newline]))
      { data := s.data, pos := s.pos + l.length + 1, eofbit := false, failbit := s.failbit }
      l (out ++ (l ++ [newline])) m
      (fun x hx => hls x (by simp [hx])) (by simp [hdata, writeLines])
      (by simp only [hpos, List.length_append, List.length_cons, List.length_nil]; omega)
      rfl hf hfuel2
    rw [hrec]
    simp [writeLines]

/-- The call `discard1stLine` on a file that holds the lines `ls`, none of them empty:
given fuel for one pass per line, it returns and the file holds the lines after the
first. -/
theorem discard1stLine_writeLines (fuel : Nat) (fs : TempFS) (name : Nat) (ls : List Line)
    (hfs : fs name = some (writeLines ls)) (hls : ∀ l ∈ ls, l ≠ [] ∧ newline ∉ l)
    (hfuel : ls.length ≤ fuel) :
    discard1stLine fuel fs name = some (Function.update fs name (some (writeLines ls.tail))) := by
  unfold discard1stLine
  rw [hfs]
  cases ls with
  | nil =>
    obtain ⟨h1, h2⟩ := getline_at_end (openIn (some (writeLines []))) [] rfl rfl rfl
    simp only []
    rw [discardLoop_eof fuel _ _ [] h1]
    rfl
  | cons l ls =>
    have hl := hls l (by simp)
    have hg := getline_line (openIn (some (writeLines (l :: ls)))) [] l (writeLines ls)
      rfl rfl rfl hl.2
    simp only []
    rw [hg]
    simp only []
    rw [discardLoop_writeLines ls (l ++ [newline]) _ l [] fuel
      (fun x hx => hls x (by simp [hx])) (by simp [openIn, writeLines])
      (by simp [openIn]) rfl rfl (by simpa using hfuel)]
    simp

/-! ## The first scan of `writeOutput` -/

theorem getline_first (l : Line) (ls : List Line) (str : Line) (hnl : newline ∉ l) :
    (getline (openIn (some (writeLines (l :: ls)))) str).2 = l := by
  rw [getline_line (openIn (some (writeLines (l :: ls)))) str l (writeLines ls) rfl rfl rfl hnl]

theorem runsFS_cons_eq (runs : List (List Line)) (i : Nat) (l : Line) (ls : List Line)
    (h : runs[i]? = some (l :: ls)) : runsFS runs i = some (writeLines (l :: ls)) := by
  simp [runsFS, h]

theorem scanFiles_succ (k : Nat) (st : MergeState) :
    scanFiles (k + 1) st = scanFile (scanFiles k st) k := by
  simp [scanFiles, List.range_succ, List.foldl_append]

theorem scanInv_base (g : Nat) (runs : List (List Line)) (l : Line) (ls : List Line)
    (h0 : runs[0]? = some (l :: ls)) (hnl : newline ∉ l) :
    ScanInv runs 1 (scanFiles 1 (mergeInit g (runsFS runs))) := by
  rw [scanFiles_one, scanFile_mergeInit_zero]
  have hline : (mergeInit g (runsFS runs)).arLines (mergeInit g (runsFS runs)).lMinIdx = l := by
    simp only [mergeInit, if_true]
    rw [runsFS_cons_eq runs 0 l ls h0]
    exact getline_first l ls [] hnl
  refine ⟨rfl, by simp [mergeInit], by simp [mergeInit], by simp [mergeInit], ?_, ?_⟩
  · rw [hline]
    simp [firstLine, mergeInit, h0]
  · intro i hi x hx
    have : i = 0 := by omega
    subst this
    rw [hline]
    simp [firstLine, h0] at hx
    rw [hx]

theorem scanInv_step (runs : List (List Line)) (k : Nat) (st : MergeState) (l : Line)
    (ls : List Line) (hk : runs[k]? = some (l :: ls)) (hnl : newline ∉ l)
    (hinv : ScanInv runs k st) : ScanInv runs (k + 1) (scanFile st k) := by
  obtain ⟨hfs, hidx, hfile, hlt, hhead, hle⟩ := hinv
  have h1 : ¬ k = st.arFilenumber st.lMinIdx := by rw [hfile]; omega
  have hfk : st.fs k = some (writeLines (l :: ls)) := by
    rw [hfs]; exact runsFS_cons_eq runs k l ls hk
  have h2 : ¬ fileSize st.fs k ≤ 0 := by
    simp [fileSize, hfk, writeLines]
  have hread : (getline (openIn (st.fs k)) (st.arLines st.lOtherIdx)).2 = l := by
    rw [hfk]; exact getline_first l ls _ hnl
  have hfl : firstLine runs k = some l := by simp [firstLine, hk]
  unfold scanFile
  simp only [h1, h2, if_false, hread, Function.update_same,
    Function.update_noteq (Ne.symm hidx)]
  by_cases hcmp : l < st.arLines st.lMinIdx
  · simp only [hcmp, if_true]
    refine ⟨hfs, Ne.symm hidx, by simp, by simp, by simpa using hfl, ?_⟩
    intro i hi x hx
    simp only [Function.update_same]
    rcases Nat.lt_succ_iff_lt_or_eq.mp hi with hlt' | heq
    · exact le_trans (le_of_lt hcmp) (hle i hlt' x hx)
    · subst heq
      rw [hfl] at hx
      cases hx
      exact le_refl _
  · simp only [hcmp, if_false]
    refine ⟨hfs, hidx, ?_, by simp; omega, ?_, ?_⟩
    · simp only [Function.update_noteq (Ne.symm hidx)]
      exact hfile
    · simp only [Function.update_noteq (Ne.symm hidx)]
      exact hhead
    · intro i hi x hx
      simp only [Function.update_noteq (Ne.symm hidx)]
      rcases Nat.lt_succ_iff_lt_or_eq.mp hi with hlt' | heq
      · exact hle i hlt' x hx
      · subst heq
        rw [hfl] at hx
        cases hx
        exact le_of_not_lt hcmp

/-- The first scan of `writeOutput` over runs that all hold a line ends with the least of
the first lines as min string. -/
theorem scanInv_all (g : Nat) (runs : List (List Line))
    (hne : ∀ r ∈ runs, r ≠ []) (hnl : ∀ r ∈ runs, ∀ l ∈ r, newline ∉ l) :
    ∀ k, 1 ≤ k → k ≤ runs.length → ScanInv runs k (scanFiles k (mergeInit g (runsFS runs))) := by
  have hcons : ∀ i, i < runs.length → ∃ l ls, runs[i]? = some (l :: ls) ∧ newline ∉ l := by
    intro i hi
    have hmem : runs[i] ∈ runs := List.getElem_mem hi
    cases hr : runs[i] with
    | nil => exact absurd hr (hne _ hmem)
    | cons l ls =>
      refine ⟨l, ls, by rw [List.getElem?_eq_getElem hi, hr], ?_⟩
      exact hnl _ hmem l (by rw [hr]; simp)
  intro k
  induction k with
  | zero => intro h; omega
  | succ k ih =>
    intro _ hk
    by_cases hk0 : k = 0
    · subst hk0
      obtain ⟨l, ls, h0, hl⟩ := hcons 0 (by omega)
      exact scanInv_base g runs l ls h0 hl
    · obtain ⟨l, ls, hk', hl⟩ := hcons k (by omega)
      rw [scanFiles_succ]
      exact scanInv_step runs k _ l ls hk' hl (ih (by omega) (by omega))

theorem mergeIter_output (fuel N : Nat) (st0 st1 : MergeState)
    (h : mergeIter fuel N st0 = some st1) :
    st1.output = st0.output ++ (lineWritten N st0 ++ [newline]) := by
  unfold mergeIter at h
  simp only at h
  cases hd : discard1stLine fuel (scanFiles N st0).fs (scanFiles N st0).szMinFilename with
  | none => rw [hd] at h; cases h
  | some fs1 =>
    rw [hd] at h
    simp only [Option.some.injEq] at h
    subst h
    simp only [lineWritten, (scanFiles_output N st0).1]

theorem runLines_runsFS (runs : List (List Line)) (i : Nat) (hi : i < runs.length)
    (hnl : ∀ r ∈ runs, ∀ l ∈ r, newline ∉ l) :
    runLines (runsFS runs) i = runs[i] := by
  simp only [runLines, runsFS, List.getElem?_eq_getElem hi, Option.map_some']
  exact fileLines_writeLines _ (hnl _ (List.getElem_mem hi))

/-! ## Passes that admit their read -/

theorem splitStep_of_admits (F lim : Nat) (st : SplitState) (h : admits F lim st = true) :
    (splitStep F lim st).stInputfile = (getline st.stInputfile st.szCurrentLine).1 ∧
    (splitStep F lim st).iTotalFiles = st.iTotalFiles := by
  unfold admits at h
  have hadm : F + st.lCurrentSize + sizeofString +
      (getline st.stInputfile st.szCurrentLine).2.length ≤ lim := by simpa using h
  unfold splitStep
  simp only [hadm, if_true]
  split_ifs <;> exact ⟨rfl, rfl⟩

/-- A pass of the loop of `splitInput` that admits its read, made before any slice was
written: no slice is written, and the stream either moves forward or reports the end of the
file. -/
theorem splitStep_admitted (F lim : Nat) (input : List Char) (st : SplitState)
    (hinv : SplitInv input st []) (he : st.stInputfile.eofbit = false)
    (hadm : admits F lim st = true) :
    SplitInv input (splitStep F lim st) [] ∧
    ((splitStep F lim st).stInputfile.eofbit = false →
      st.stInputfile.pos + 1 ≤ (splitStep F lim st).stInputfile.pos) := by
  obtain ⟨hstream, hfiles⟩ := splitStep_of_admits F lim st hadm
  have hf : st.stInputfile.failbit = false := by
    obtain ⟨⟨p, ⟨_, hc⟩, _⟩, _, _, _⟩ := hinv
    rcases hc with ⟨_, hf, _⟩ | ⟨he', _⟩
    · exact hf
    · rw [he] at he'; cases he'
  obtain ⟨_, _, hread⟩ := getline_good st.stInputfile st.szCurrentLine he hf
  have hfiles0 : (splitStep F lim st).iTotalFiles = 0 := by
    rw [hfiles, hinv.files]; rfl
  constructor
  · rcases splitStep_inv F lim input st [] hinv he with hs | ⟨b, hb⟩
    · exfalso
      obtain ⟨h1, h2⟩ := hs
      rw [hstream] at h1 h2
      rcases hread with ⟨_, _, _, _, hf1⟩ | ⟨_, _, he1, _⟩
      · rw [hf1] at h2; cases h2
      · rw [he1] at h1; cases h1
    · have hb0 : b = [] := by
        have := hb.files
        rw [hfiles0] at this
        exact List.length_eq_zero.mp this.symm
      rw [hb0] at hb
      exact hb
  · intro he2
    rw [hstream] at he2 ⊢
    rcases hread with ⟨_, _, hp, _, _⟩ | ⟨_, _, he1, _⟩
    · rw [hp]; omega
    · rw [he1] at he2; cases he2

theorem splitLoop_splitRun (mem : Nat → Nat) (lim : Nat) (input : List Char) :
    ∀ (j k fuel : Nat),
      (∀ i, k ≤ i → i < k + j → (splitRun mem lim input i).stInputfile.eofbit = false) →
      (splitRun mem lim input (k + j)).stInputfile.eofbit = true → j ≤ fuel →
      splitLoop mem lim fuel k (splitRun mem lim input k)
        = some (splitRun mem lim input (k + j)) := by
  intro j
  induction j with
  | zero =>
    intro k fuel _ he _
    have he1 : (splitRun mem lim input k).stInputfile.eofbit = true := he
    cases fuel <;> simp [splitLoop, he1]
  | succ j ih =>
    intro k fuel hno he hfuel
    obtain ⟨m, rfl⟩ : ∃ m, fuel = m + 1 := ⟨fuel - 1, by omega⟩
    have hk := hno k (le_refl _) (by omega)
    simp only [splitLoop, hk, Bool.false_eq_true, if_false]
    have := ih (k + 1) m (fun i h1 h2 => hno i (by omega) (by omega))
      (by rw [show k + 1 + j = k + (j + 1) by omega]; exact he) (by omega)
    rw [show k + 1 + j = k + (j + 1) by omega] at this
    exact this

/-- While every pass admits its read, no slice is written and pass `k` starts at or beyond
position `k` of the input. -/
theorem splitRun_admitted (mem : Nat → Nat) (lim : Nat) (input : List Char)
    (hadm : ∀ k, k ≤ input.length →
      (splitRun mem lim input k).stInputfile.eofbit = false →
      admits (mem k) lim (splitRun mem lim input k) = true) :
    ∀ k, (∀ i, i < k → (splitRun mem lim input i).stInputfile.eofbit = false) →
      SplitInv input (splitRun mem lim input k) [] ∧
      ((splitRun mem lim input k).stInputfile.eofbit = false →
        k ≤ (splitRun mem lim input k).stInputfile.pos ∧ k ≤ input.length) := by
  have hpos : ∀ st, SplitInv input st [] → st.stInputfile.eofbit = false →
      st.stInputfile.pos ≤ input.length := by
    intro st hinv he
    obtain ⟨⟨p, ⟨_, hc⟩, _⟩, _, _, _⟩ := hinv
    rcases hc with ⟨_, _, hp, _⟩ | ⟨he', _⟩
    · exact hp
    · rw [he] at he'; cases he'
  intro k
  induction k with
  | zero =>
    intro _
    exact ⟨splitInit_inv input, fun _ => ⟨Nat.zero_le _, Nat.zero_le _⟩⟩
  | succ k ih =>
    intro hno
    obtain ⟨hinv, hk⟩ := ih (fun i hi => hno i (by omega))
    have hek := hno k (by omega)
    obtain ⟨hk1, hk2⟩ := hk hek
    obtain ⟨hinv', hadv⟩ := splitStep_admitted (mem k) lim input _ hinv hek (hadm k hk2 hek)
    refine ⟨hinv', ?_⟩
    intro he'
    have h1 := hadv he'
    have h2 := hpos _ hinv' he'
    simp only [splitRun] at h1 h2 ⊢
    omega

/-- When every pass admits its read, the loop of `splitInput` ends within one pass per
character of the input and one more, with all non-empty lines in the batch and no slice
written. -/
theorem splitRun_reaches_eof (mem : Nat → Nat) (lim : Nat) (input : List Char)
    (hadm : ∀ k, k ≤ input.length →
      (splitRun mem lim input k).stInputfile.eofbit = false →
      admits (mem k) lim (splitRun mem lim input k) = true) :
    ∃ n, n ≤ input.length + 1 ∧
      (∀ i, i < n → (splitRun mem lim input i).stInputfile.eofbit = false) ∧
      (splitRun mem lim input n).stInputfile.eofbit = true ∧
      SplitInv input (splitRun mem lim input n) [] := by
  have hex : ∃ n, (splitRun mem lim input n).stInputfile.eofbit = true := by
    by_contra hcon
    have hall : ∀ i, (splitRun mem lim input i).stInputfile.eofbit = false := by
      intro i
      cases h : (splitRun mem lim input i).stInputfile.eofbit with
      | false => rfl
      | true => exact absurd ⟨i, h⟩ hcon
    have := (splitRun_admitted mem lim input hadm (input.length + 1)
      (fun i _ => hall i)).2 (hall _)
    omega
  classical
  refine ⟨Nat.find hex, ?_, ?_, Nat.find_spec hex, ?_⟩
  · by_contra hgt
    have hlt : input.length + 1 < Nat.find hex := by omega
    have hno : ∀ i, i < input.length + 2 →
        (splitRun mem lim input i).stInputfile.eofbit = false := by
      intro i hi
      have := Nat.find_min hex (show i < Nat.find hex by omega)
      simpa using this
    have := (splitRun_admitted mem lim input hadm (input.length + 1)
      (fun i hi => hno i (by omega))).2 (hno _ (by omega))
    omega
  · intro i hi
    have := Nat.find_min hex hi
    simpa using this
  · exact (splitRun_admitted mem lim input hadm (Nat.find hex) (fun i hi => by
      have := Nat.find_min hex hi
      simpa using this)).1
/-- When every pass of the loop admits its read, the read that meets the end of the file
included, `splitInput` returns after at most one pass per character of the input and one
more, having created the single run `temp_0` that holds the non-empty lines of the input in
sorted order. -/
theorem splitInput_single_run (mem : Nat → Nat) (lim : Nat) (input : List Char)
    (hne : nonEmptyLines input ≠ [])
    (hadm : ∀ k, k ≤ input.length →
      (splitRun mem lim input k).stInputfile.eofbit = false →
      admits (mem k) lim (splitRun mem lim input k) = true) :
    ∃ r, splitInput mem lim (input.length + 1) input = some r ∧ r.iTotalFiles = 1 ∧
      r.lTotalLines = (nonEmptyLines input).length ∧
      r.fs 0 = some (writeLines (sortLines (nonEmptyLines input))) ∧
      ∀ i, 0 < i → r.fs i = none := by
  obtain ⟨n, hn, hno, he, hinv⟩ := splitRun_reaches_eof mem lim input hadm
  have hloop := splitLoop_splitRun mem lim input n 0 (input.length + 1)
    (fun i _ hi => hno i (by omega)) (by rw [Nat.zero_add]; exact he) hn
  rw [Nat.zero_add] at hloop
  have hinit : splitRun mem lim input 0 = splitInit input := rfl
  rw [hinit] at hloop
  obtain ⟨pending, hat, hflat⟩ := hinv.stream
  have hpend : pending = [] := by
    obtain ⟨_, hc⟩ := hat
    rcases hc with ⟨he', _⟩ | ⟨_, hp0⟩
    · rw [he] at he'; cases he'
    · exact hp0
  have hv : (splitRun mem lim input n).vLines = nonEmptyLines input := by
    rw [hpend] at hflat
    simpa using hflat
  have hlen : (splitRun mem lim input n).vLines.length > 0 := by
    rw [hv]
    exact List.length_pos.mpr hne
  have hfiles : (splitRun mem lim input n).iTotalFiles = 0 := hinv.files
  have hfs : ∀ i, (splitRun mem lim input n).fs i = none := by
    intro i
    rw [hinv.fs_eq i]
    rfl
  refine ⟨splitFinish (splitRun mem lim input n), ?_, ?_, ?_, ?_, ?_⟩
  · unfold splitInput
    rw [hloop]
    rfl
  · simp only [splitFinish, hlen, if_true, hfiles]
  · simp only [splitFinish, hlen, if_true]
    rw [hinv.total, hv]
    rfl
  · unfold splitFinish
    rw [if_pos hlen]
    simp only [sortWriteSlice, hv]
    rw [hfiles, Function.update_same]
  · intro i hi
    simp only [splitFinish, hlen, if_true, hfiles, sortWriteSlice]
    rw [Function.update_noteq (by omega)]
    exact hfs i

/-! ## The lines that `writeOutput` writes hold no separator -/

theorem getline_no_newline (s : IStream) (str : Line) (h : newline ∉ str) :
    newline ∉ (getline s str).2 := by
  unfold getline
  by_cases hg : (s.eofbit || s.failbit) = true
  · simp only [hg, if_true]
    exact h
  · simp only [hg, Bool.false_eq_true, if_false]
    have hw : newline ∉ (s.data.drop s.pos).takeWhile (fun c => c != newline) := by
      intro hm
      have := List.mem_takeWhile_imp hm
      simp at this
    split_ifs <;> exact hw

theorem scanFile_arLines (st : MergeState) (i : Nat) (h : ∀ j, newline ∉ st.arLines j) :
    ∀ j, newline ∉ (scanFile st i).arLines j := by
  have hup : ∀ j, newline ∉ Function.update st.arLines st.lOtherIdx
      (getline (openIn (st.fs i)) (st.arLines st.lOtherIdx)).2 j := by
    intro j
    by_cases hj : j = st.lOtherIdx
    · rw [hj, Function.update_same]
      exact getline_no_newline _ _ (h _)
    · rw [Function.update_noteq hj]
      exact h j
  unfold scanFile
  by_cases h1 : i = st.arFilenumber st.lMinIdx
  · simp only [h1, if_true]
    exact h
  · by_cases h2 : fileSize st.fs i ≤ 0
    · simp only [h1, h2, if_true, if_false]
      exact h
    · simp only [h1, h2, if_false]
      split_ifs <;> exact hup

theorem scanFiles_arLines (n : Nat) (st : MergeState) (h : ∀ j, newline ∉ st.arLines j) :
    ∀ j, newline ∉ (scanFiles n st).arLines j := by
  unfold scanFiles
  induction n with
  | zero => exact h
  | succ k ih =>
    rw [List.range_succ, List.foldl_append]
    simp only [List.foldl_cons, List.foldl_nil]
    exact scanFile_arLines _ k ih

theorem mergeInit_arLines (g : Nat) (fs : TempFS) : ∀ j, newline ∉ (mergeInit g fs).arLines j := by
  intro j
  simp only [mergeInit]
  split_ifs
  · exact getline_no_newline _ _ (by simp)
  · simp

/-- Every pass of the main loop of `writeOutput` appends to the output one line that holds
no separator, followed by one separator, and counts one line written. -/
theorem mergeLoop_lines (fuel N : Nat) :
    ∀ (n : Nat) (st0 st : MergeState), (∀ j, newline ∉ st0.arLines j) →
      mergeLoop fuel N n st0 = some st →
      st.lWrittenLines = st0.lWrittenLines + n ∧
      ∃ lines : List Line, lines.length = n ∧ (∀ l ∈ lines, newline ∉ l) ∧
        st.output = st0.output ++ writeLines lines := by
  intro n
  induction n with
  | zero =>
    intro st0 st _ h
    simp only [mergeLoop, Option.some.injEq] at h
    subst h
    exact ⟨rfl, [], rfl, by simp, by simp [writeLines]⟩
  | succ n ih =>
    intro st0 st h0 h
    simp only [mergeLoop, Option.bind_eq_some] at h
    obtain ⟨st1, h1, h2⟩ := h
    have hs := scanFiles_arLines N st0 h0
    unfold mergeIter at h1
    simp only at h1
    cases hd : discard1stLine fuel (scanFiles N st0).fs (scanFiles N st0).szMinFilename with
    | none => rw [hd] at h1; cases h1
    | some fs1 =>
      rw [hd] at h1
      simp only [Option.some.injEq] at h1
      subst h1
      obtain ⟨hw, lines, hlen, hnl, hout⟩ := ih _ st (by intro j; exact hs j) h2
      obtain ⟨ho, hl⟩ := scanFiles_output N st0
      simp only at hw hout
      refine ⟨by rw [hw, hl]; omega,
        (scanFiles N st0).arLines (scanFiles N st0).lMinIdx :: lines, by simp [hlen], ?_, ?_⟩
      · intro l hl'
        rcases List.mem_cons.mp hl' with rfl | hl'
        · exact hs _
        · exact hnl l hl'
      · rw [hout, ho]
        simp [writeLines]

theorem count_newline_writeLines (ls : List Line) (h : ∀ l ∈ ls, newline ∉ l) :
    (writeLines ls).count newline = ls.length := by
  induction ls with
  | nil => simp [writeLines]
  | cons l ls ih =>
    have h1 : newline ∉ l := h l (List.mem_cons_self _ _)
    have h2 := ih (fun x hx => h x (List.mem_cons_of_mem _ hx))
    have hw : writeLines (l :: ls) = l ++ newline :: writeLines ls := by
      simp [writeLines]
    rw [hw, List.count_append, List.count_cons_self, h2, List.count_eq_zero_of_not_mem h1]
    simp

/-! ## The runs persisted by any pass of `splitInput` -/

theorem splitStep_accept (F lim : Nat) (st : SplitState) (h : admits F lim st = true) :
    (splitStep F lim st).fs = st.fs ∧ (splitStep F lim st).iTotalFiles = st.iTotalFiles ∧
    (splitStep F lim st).szCurrentLine = (getline st.stInputfile st.szCurrentLine).2 ∧
    ((splitStep F lim st).vLines = st.vLines ∨
      ((getline st.stInputfile st.szCurrentLine).2 ≠ [] ∧
        (splitStep F lim st).vLines
          = st.vLines ++ [(getline st.stInputfile st.szCurrentLine).2])) := by
  unfold admits at h
  have hadm : F + st.lCurrentSize + sizeofString +
      (getline st.stInputfile st.szCurrentLine).2.length ≤ lim := by simpa using h
  unfold splitStep
  simp only [hadm, if_true]
  by_cases hl : (getline st.stInputfile st.szCurrentLine).2.length > 0
  · simp only [hl, if_true]
    exact ⟨trivial, trivial, trivial, Or.inr ⟨List.length_pos.mp hl, trivial⟩⟩
  · simp only [hl, if_false]
    exact ⟨trivial, trivial, trivial, Or.inl trivial⟩

theorem splitStep_reject (F lim : Nat) (st : SplitState) (h : admits F lim st = false) :
    (splitStep F lim st).fs = sortWriteSlice st.fs st.vLines st.iTotalFiles ∧
    (splitStep F lim st).iTotalFiles = st.iTotalFiles + 1 ∧
    (splitStep F lim st).szCurrentLine = (getline st.stInputfile st.szCurrentLine).2 ∧
    (splitStep F lim st).vLines = [] := by
  unfold admits at h
  have hadm : ¬ F + st.lCurrentSize + sizeofString +
      (getline st.stInputfile st.szCurrentLine).2.length ≤ lim := by simpa using h
  unfold splitStep
  simp only [hadm, if_false, and_self]

/-- In every pass of the loop of `splitInput` the lines of the batch have content and hold
no separator. -/
theorem splitRun_lines (mem : Nat → Nat) (lim : Nat) (input : List Char) :
    ∀ n, newline ∉ (splitRun mem lim input n).szCurrentLine ∧
      ∀ l ∈ (splitRun mem lim input n).vLines, l ≠ [] ∧ newline ∉ l := by
  intro n
  induction n with
  | zero => exact ⟨by simp [splitRun, splitInit], by simp [splitRun, splitInit]⟩
  | succ n ih =>
    obtain ⟨h1, h2⟩ := ih
    have hg := getline_no_newline (splitRun mem lim input n).stInputfile _ h1
    simp only [splitRun]
    cases ha : admits (mem n) lim (splitRun mem lim input n) with
    | true =>
      obtain ⟨_, _, hc, hv⟩ := splitStep_accept (mem n) lim _ ha
      refine ⟨by rw [hc]; exact hg, ?_⟩
      rcases hv with hv | ⟨hne, hv⟩
      · rw [hv]; exact h2
      · rw [hv]
        intro l hl
        rcases List.mem_append.mp hl with hl | hl
        · exact h2 l hl
        · rw [List.mem_singleton.mp hl]
          exact ⟨hne, hg⟩
    | false =>
      obtain ⟨_, _, hc, hv⟩ := splitStep_reject (mem n) lim _ ha
      refine ⟨by rw [hc]; exact hg, ?_⟩
      rw [hv]
      simp

/-- After any number of passes of the loop of `splitInput`, the temporary files are
`temp_0 .. temp_<iTotalFiles - 1>`, and each of them is the sorted batch that an earlier
pass flushed when it rejected its read. -/
theorem splitRun_files (mem : Nat → Nat) (lim : Nat) (input : List Char) :
    ∀ n, (∀ i, (splitRun mem lim input n).iTotalFiles ≤ i →
        (splitRun mem lim input n).fs i = none) ∧
      ∀ i, i < (splitRun mem lim input n).iTotalFiles →
        ∃ m, m < n ∧ admits (mem m) lim (splitRun mem lim input m) = false ∧
          (splitRun mem lim input m).iTotalFiles = i ∧
          (splitRun mem lim input n).fs i
            = some (writeLines (sortLines (splitRun mem lim input m).vLines)) := by
  intro n
  induction n with
  | zero =>
    exact ⟨fun i _ => rfl, fun i hi => absurd hi (by simp [splitRun, splitInit])⟩
  | succ n ih =>
    obtain ⟨h1, h2⟩ := ih
    simp only [splitRun]
    cases ha : admits (mem n) lim (splitRun mem lim input n) with
    | true =>
      obtain ⟨hf, hN, _, _⟩ := splitStep_accept (mem n) lim _ ha
      rw [hf, hN]
      refine ⟨h1, fun i hi => ?_⟩
      obtain ⟨m, hm, hrest⟩ := h2 i hi
      exact ⟨m, by omega, hrest⟩
    | false =>
      obtain ⟨hf, hN, _, _⟩ := splitStep_reject (mem n) lim _ ha
      rw [hf, hN]
      constructor
      · intro i hi
        simp only [sortWriteSlice]
        rw [Function.update_noteq (by omega)]
        exact h1 i (by omega)
      · intro i hi
        by_cases hi' : i = (splitRun mem lim input n).iTotalFiles
        · refine ⟨n, by omega, ha, hi'.symm, ?_⟩
          simp only [sortWriteSlice]
          rw [hi', Function.update_same]
        · obtain ⟨m, hm, ha', hNm, hfs⟩ := h2 i (by omega)
          refine ⟨m, by omega, ha', hNm, ?_⟩
          simp only [sortWriteSlice]
          rw [Function.update_noteq hi']
          exact hfs

theorem runOf_of_written (fs : TempFS) (i : Nat) (b : List Line)
    (hb : ∀ l ∈ b, l ≠ [] ∧ newline ∉ l) (hfs : fs i = some (writeLines (sortLines b))) :
    RunOf fs i b := by
  have hnl : ∀ l ∈ sortLines b, newline ∉ l :=
    fun l hl => (hb l ((sortLines_perm b).mem_iff.mp hl)).2
  have hrun : runLines fs i = sortLines b := by
    simp only [runLines, hfs]
    exact fileLines_writeLines _ hnl
  refine ⟨by rw [hrun]; exact hfs, by rw [hrun]; exact sortLines_sorted b, ?_,
    by rw [hrun]; exact sortLines_perm b⟩
  intro l hl
  rw [hrun] at hl
  exact (hb l ((sortLines_perm b).mem_iff.mp hl)).1

/-- What the loop of `splitInput` hands over when it ends is the state at the start of one
of its passes. -/
theorem splitLoop_eq_splitRun (mem : Nat → Nat) (lim : Nat) (input : List Char) :
    ∀ (fuel k : Nat) (st : SplitState),
      splitLoop mem lim fuel k (splitRun mem lim input k) = some st →
      ∃ n, st = splitRun mem lim input n ∧ st.stInputfile.eofbit = true := by
  intro fuel
  induction fuel with
  | zero =>
    intro k st h
    simp only [splitLoop] at h
    split_ifs at h with he
    simp only [Option.some.injEq] at h
    subst h
    exact ⟨k, rfl, he⟩
  | succ f ih =>
    intro k st h
    simp only [splitLoop] at h
    split_ifs at h with he
    · simp only [Option.some.injEq] at h
      subst h
      exact ⟨k, rfl, he⟩
    · exact ih (k + 1) st h

/-! ## Budgets between which the passes agree -/

theorem splitRun_shift (c lim : Nat) (input : List Char) :
    ∀ n, splitRun (fun _ => c) (c + lim) input n = splitRun (fun _ => 0) lim input n := by
  intro n
  induction n with
  | zero => rfl
  | succ n ih =>
    simp only [splitRun]
    rw [ih]
    exact splitStep_shift c 0 lim _

theorem admits_shift (c lim : Nat) (st : SplitState) :
    admits c (c + lim) st = admits 0 lim st := by
  unfold admits
  congr 1
  apply propext
  constructor <;> intro h <;> omega

/-- When the admission checks of the first `n` passes have the same outcome under the
budgets `lo` and `hi`, every budget between them leads through the same states. -/
theorem splitRun_between (mem : Nat → Nat) (lo hi b : Nat) (input : List Char)
    (hlo : lo ≤ b) (hhi : b ≤ hi) :
    ∀ n, (∀ k, k < n → admits (mem k) lo (splitRun mem lo input k)
        = admits (mem k) hi (splitRun mem lo input k)) →
      splitRun mem b input n = splitRun mem lo input n := by
  intro n
  induction n with
  | zero => intro _; rfl
  | succ n ih =>
    intro h
    simp only [splitRun]
    rw [ih (fun k hk => h k (by omega))]
    exact splitStep_congr (mem n) b lo _
      (admits_between (mem n) lo hi b _ hlo hhi (h n (by omega)))

/-- A loop of `splitInput` that reaches, without meeting the end of the file before, a pass
in which the stream has `failbit` set and `eofbit` cleared never ends. -/
theorem splitLoop_none_of_stuck (mem : Nat → Nat) (lim : Nat) (input : List Char) :
    ∀ (j k fuel : Nat),
      (∀ i, k ≤ i → i < k + j → (splitRun mem lim input i).stInputfile.eofbit = false) →
      Stuck (splitRun mem lim input (k + j)).stInputfile →
      splitLoop mem lim fuel k (splitRun mem lim input k) = none := by
  intro j
  induction j with
  | zero =>
    intro k fuel _ hs
    exact splitLoop_stuck mem lim fuel k _ hs
  | succ j ih =>
    intro k fuel hno hs
    have hk := hno k (le_refl _) (by omega)
    have hrec := ih (k + 1) (fuel - 1) (fun i h1 h2 => hno i (by omega) (by omega))
      (by rw [show k + 1 + j = k + (j + 1) by omega]; exact hs)
    cases fuel with
    | zero => simp [splitLoop, hk]
    | succ f =>
      simp only [splitLoop, hk, Bool.false_eq_true, if_false]
      exact hrec

/-! ## Further facts about the passes of `splitInput` -/

/-- The multi-run example where it completes: on the input lines `d`, `b`, `a`, `c` with a
constant footprint `F` and the budget `F + 98`, under which the empty read at the end of
the file is admitted too, `splitInput` returns 2 runs and 4 lines with `temp_0` holding
`b`, `d` and `temp_1` holding `a`, `c`, and the program then writes exactly `a`, `b`, `c`,
`d`, whatever the uninitialised entry of `arFilenumber` holds.  When the last line of the
input file is not followed by a separator, the same holds under every budget from `F + 66`
to `F + 98`. -/
theorem multi_run_example (F g : Nat) (e : Fin 33) :
    (splitInput (fun _ => F) (F + 98) 20 "d\nb\na\nc\n".toList).map
        (fun r => (r.iTotalFiles, r.lTotalLines, r.fs 0, r.fs 1))
      = some (2, 4, some "b\nd\n".toList, some "a\nc\n".toList) ∧
    outputOf (main 4 (some "d\nb\na\nc\n".toList) (F + 98) F (fun _ => F) g 20)
      = some "a\nb\nc\nd\n".toList ∧
    (splitInput (fun _ => F) (F + (66 + e.val)) 20 "d\nb\na\nc".toList).map
        (fun r => (r.iTotalFiles, r.lTotalLines, r.fs 0, r.fs 1))
      = some (2, 4, some "b\nd\n".toList, some "a\nc\n".toList) ∧
    outputOf (main 4 (some "d\nb\na\nc".toList) (F + (66 + e.val)) F (fun _ => F) g 20)
      = some "a\nb\nc\nd\n".toList := by
  refine ⟨?_, ?_, ?_, ?_⟩
  · rw [splitInput_shift]
    rfl
  · rw [main_shift, main_garbage_of_check 4 "d\nb\na\nc\n".toList 98 0 (fun _ => 0) g 0 20 rfl]
    rfl
  · rw [splitInput_shift, splitInput_between "d\nb\na\nc".toList 66 98 (66 + e.val)
      (fun _ => 0) 20 (by omega) (by omega) rfl]
    rfl
  · rw [main_shift, main_between 4 "d\nb\na\nc".toList 66 98 (66 + e.val) 0 (fun _ => 0) g 20
      (by omega) (by omega) (by omega) rfl,
      main_garbage_of_check 4 "d\nb\na\nc".toList 66 0 (fun _ => 0) g 0 20 rfl]
    rfl

/-- When `splitInput` returns, the slices it flushed are consecutive segments `batches` of
the non-empty lines of the input, and every run `temp_<i>` it persisted through
`sortWriteSlice` holds exactly the lines of the slice `batches[i]`, rearranged in
non-decreasing lexicographic order, none of them empty. -/
theorem splitInput_runs_sorted (mem : Nat → Nat) (lim fuel : Nat) (input : List Char)
    (r : SplitResult) (h : splitInput mem lim fuel input = some r) :
    ∃ batches : List (List Line),
      batches.length = r.iTotalFiles ∧ batches.flatten = nonEmptyLines input ∧
      ∀ (i : Nat) (hi : i < batches.length),
        r.fs i = some (writeLines (runLines r.fs i)) ∧
        (runLines r.fs i).Sorted (fun a b => a ≤ b) ∧
        (∀ l ∈ runLines r.fs i, l ≠ []) ∧
        (runLines r.fs i).Perm (batches.get ⟨i, hi⟩) := by
  obtain ⟨batches, hN, hfs, hflat, _⟩ := splitInput_batches mem lim fuel input r h
  have hb := batches_no_newline input batches hflat
  have hruns := allRunLines_batches r.fs batches (fun b hb' l hl => (hb b hb' l hl).2) hfs
  refine ⟨batches, hN.symm, hflat, ?_⟩
  intro i hi
  have hrun : runLines r.fs i = sortLines (batches.get ⟨i, hi⟩) := by
    have := congrArg (fun L => L[i]?) hruns
    simpa [hi] using this
  rw [hrun]
  refine ⟨?_, sortLines_sorted _, ?_, sortLines_perm _⟩
  · rw [hfs i, List.getElem?_eq_getElem hi]
    rfl
  · intro l hl
    exact (hb _ (List.get_mem batches i hi) l ((sortLines_perm _).mem_iff.mp hl)).1

/-- The runs of a call of `splitInput` that returns: the theorem applied to the input lines
`d`, `b`, `a`, `c` with the footprint `5000` and the budget `5098`. -/
theorem splitInput_runs_sorted_witness :
    ∃ r, splitInput (fun _ => 5000) 5098 20 "d\nb\na\nc\n".toList = some r ∧
      ∃ batches : List (List Line),
        batches.length = r.iTotalFiles ∧
        batches.flatten = nonEmptyLines "d\nb\na\nc\n".toList ∧
        ∀ (i : Nat) (hi : i < batches.length),
          r.fs i = some (writeLines (runLines r.fs i)) ∧
          (runLines r.fs i).Sorted (fun a b => a ≤ b) ∧
          (∀ l ∈ runLines r.fs i, l ≠ []) ∧
          (runLines r.fs i).Perm (batches.get ⟨i, hi⟩) :=
  ⟨_, rfl, splitInput_runs_sorted (fun _ => 5000) 5098 20 _ _ rfl⟩

/-- One pass on a line that does not fit an empty batch: the pass of `splitInput` that
reads it does not admit it; after the pass the batch is still empty, `lCurrentSize` is `0`
and `lTotalLines` is unchanged, and when the line is ended by a separator the stream is put
back where the line starts. -/
theorem oversize_line_rejected (F lim : Nat) (st : SplitState)
    (hv : st.vLines = []) (hc : st.lCurrentSize = 0)
    (hbig : lim < F + sizeofString + (getline st.stInputfile st.szCurrentLine).2.length) :
    (splitStep F lim st).vLines = st.vLines ∧
    (splitStep F lim st).lCurrentSize = 0 ∧
    (splitStep F lim st).lTotalLines = st.lTotalLines ∧
    (splitStep F lim st).szCurrentLine = (getline st.stInputfile st.szCurrentLine).2 ∧
    (∀ l rest, st.stInputfile.eofbit = false → st.stInputfile.failbit = false →
      st.stInputfile.data.drop st.stInputfile.pos = l ++ newline :: rest → newline ∉ l →
      (splitStep F lim st).stInputfile = st.stInputfile) := by
  have hrej : ¬ (F + st.lCurrentSize + sizeofString +
      (getline st.stInputfile st.szCurrentLine).2.length ≤ lim) := by
    rw [hc]; omega
  refine ⟨?_, ?_, ?_, ?_, ?_⟩
  · simp only [splitStep, hrej, if_false, hv]
  · simp only [splitStep, hrej, if_false]
  · simp only [splitStep, hrej, if_false]
  · simp only [splitStep, hrej, if_false]
  · intro l rest he hf hdrop hnl
    have hbig2 : lim < F + sizeofString + l.length := by
      rw [getline_line _ _ l rest he hf hdrop hnl] at hbig
      exact hbig
    rw [splitStep_oversize F lim st l rest he hf hdrop hnl hc hbig2]

/-- The first pass of `splitInput` on the input lines `aaaa`, `b` with footprint `5000`
and budget `5035`. -/
theorem oversize_line_rejected_witness :
    (splitInit "aaaa\nb\n".toList).vLines = [] ∧
    (splitInit "aaaa\nb\n".toList).lCurrentSize = 0 ∧
    5035 < 5000 + sizeofString +
      (getline (splitInit "aaaa\nb\n".toList).stInputfile
        (splitInit "aaaa\nb\n".toList).szCurrentLine).2.length ∧
    (splitStep 5000 5035 (splitInit "aaaa\nb\n".toList)).vLines = [] ∧
    (splitStep 5000 5035 (splitInit "aaaa\nb\n".toList)).lCurrentSize = 0 ∧
    (splitStep 5000 5035 (splitInit "aaaa\nb\n".toList)).lTotalLines = 0 ∧
    (splitStep 5000 5035 (splitInit "aaaa\nb\n".toList)).stInputfile
      = (splitInit "aaaa\nb\n".toList).stInputfile :=
  have h := oversize_line_rejected 5000 5035 (splitInit "aaaa\nb\n".toList) rfl rfl
    (by decide)
  ⟨rfl, rfl, by decide, h.1, h.2.1, h.2.2.1,
    h.2.2.2.2 "aaaa".toList "b\n".toList rfl rfl rfl (by decide)⟩

/-! ## The properties -/

/-- C1 (defect). Sortedness fails: on the input lines `c`, `d`, `a`, `b` with a constant
footprint `F` and the budget `F + 98` (two lines per batch) the program completes and the
output file holds the lines `a`, `b`, `c`, `b`, which are not in non-decreasing order. -/
theorem sortedness_fails (F g : Nat) :
    outputOf (main 4 (some "c\nd\na\nb\n".toList) (F + 98) F (fun _ => F) g 20)
      = some "a\nb\nc\nb\n".toList ∧
    ¬ (fileLines "a\nb\nc\nb\n".toList).Sorted (fun a b => a ≤ b) := by
  constructor
  · rw [main_shift, main_garbage_of_check 4 "c\nd\na\nb\n".toList 98 0 (fun _ => 0) g 0 20 rfl]
    rfl
  · decide

/-- C2 (defect). Completeness fails: on the input lines `c`, `d`, `a`, `b` with a constant
footprint `F` and the budget `F + 98` the program completes, the line `d` of the input is
missing from the output and the line `b` occurs twice in it. -/
theorem completeness_fails (F g : Nat) :
    ∃ out, outputOf (main 4 (some "c\nd\na\nb\n".toList) (F + 98) F (fun _ => F) g 20)
        = some out ∧
      (↑(nonEmptyLines out) : Multiset Line) ≠ ↑(nonEmptyLines "c\nd\na\nb\n".toList) ∧
      "d".toList ∈ nonEmptyLines "c\nd\na\nb\n".toList ∧ "d".toList ∉ nonEmptyLines out ∧
      (nonEmptyLines out).count "b".toList = 2 := by
  refine ⟨"a\nb\nc\nb\n".toList, ?_, ?_, by decide, by decide, by decide⟩
  · rw [main_shift, main_garbage_of_check 4 "c\nd\na\nb\n".toList 98 0 (fun _ => 0) g 0 20 rfl]
    rfl
  · intro h
    have hp := Multiset.coe_eq_coe.mp h
    have hm : "d".toList ∈ nonEmptyLines "a\nb\nc\nb\n".toList :=
      hp.mem_iff.mpr (by decide)
    revert hm
    decide

/-- C3 (defect). The merge-frontier invariant fails: for the sorted runs `c`, `d` and `a`,
`b` the fourth pass of the main loop of `writeOutput` starts with `temp_0` holding `d` and
`temp_1` empty, so that the frontier is the single line `d`, and writes the line `b`. -/
theorem merge_frontier_fails (g : Nat) :
    ∃ st, mergeLoop 20 2 3
        (mergeInit g (runsFS [["c".toList, "d".toList], ["a".toList, "b".toList]])) = some st ∧
      st.fs 0 = some "d\n".toList ∧ st.fs 1 = some [] ∧
      frontier st.fs 2 = ["d".toList] ∧ lineWritten 2 st = "b".toList := by
  have h := writeOutput_garbage g 0 20
    (runsFS [["c".toList, "d".toList], ["a".toList, "b".toList]]) 2 3 1
    (by decide) (by decide) (by decide) (by decide)
  unfold writeOutput at h
  rw [h]
  exact ⟨_, rfl, rfl, rfl, rfl, rfl⟩

/-- C4 (defect). Runs are not consumed to exhaustion: for the sorted runs `c`, `d` and `a`,
`b` with `L = 4`, `writeOutput` writes four lines, `a`, `b`, `c`, `b`, and when its loop
finishes `temp_0` still holds the line `d`. -/
theorem merge_leaves_run (g : Nat) :
    ∃ st, writeOutput g 20
        (runsFS [["c".toList, "d".toList], ["a".toList, "b".toList]]) 2 4 = some st ∧
      st.lWrittenLines = 4 ∧ st.output = "a\nb\nc\nb\n".toList ∧
      st.fs 0 = some "d\n".toList ∧ st.fs 1 = some [] := by
  rw [writeOutput_garbage g 0 20
    (runsFS [["c".toList, "d".toList], ["a".toList, "b".toList]]) 2 4 1
    (by decide) (by decide) (by decide) (by decide)]
  exact ⟨_, rfl, rfl, rfl, rfl, rfl⟩

/-- C5 (defect). The single-run case fails: on the input lines `banana`, `apple`, an empty
line, `cherry`, `apple` with a constant footprint `F` and the budget `F + 1000`,
`splitInput` creates the single run `apple`, `apple`, `banana`, `cherry`; the program
then either does not complete or writes `apple`, an empty line, `apple`, an empty line, and
it does write these four lines when the uninitialised entry of `arFilenumber` is zero. -/
theorem single_run_example_fails (F g fuel : Nat) :
    (splitInput (fun _ => F) (F + 1000) 50 "banana\napple\n\ncherry\napple\n".toList).map
        (fun r => (r.iTotalFiles, r.lTotalLines, r.fs 0))
      = some (1, 4, some "apple\napple\nbanana\ncherry\n".toList) ∧
    (outputOf (main 4 (some "banana\napple\n\ncherry\napple\n".toList) (F + 1000) F
        (fun _ => F) g fuel) = none ∨
      outputOf (main 4 (some "banana\napple\n\ncherry\napple\n".toList) (F + 1000) F
        (fun _ => F) g fuel) = some "apple\n\napple\n\n".toList) ∧
    outputOf (main 4 (some "banana\napple\n\ncherry\napple\n".toList) (F + 1000) F
        (fun _ => F) 0 50) = some "apple\n\napple\n\n".toList := by
  refine ⟨?_, ?_, ?_⟩
  · rw [splitInput_shift]
    rfl
  · rw [main_shift]
    exact main_single_run 4 "banana\napple\n\ncherry\napple\n".toList 1000 0 (fun _ => 0) 50
      "apple\n\napple\n\n".toList rfl rfl rfl g fuel
  · rw [main_shift]
    rfl

/-- C6 (defect). The multi-run example does not complete: on the input lines `d`, `b`, `a`,
`c`, each followed by a separator, with a constant footprint `F` and any budget from
`F + 66` to `F + 97`, which admits exactly two such lines per batch (the first two reads
are admitted, the third is rejected with the batch `d`, `b` in memory), the loop of
`splitInput` persists `temp_0` holding `b`, `d` and `temp_1` holding `a`, `c` and counts 2
files and 4 lines, but the read that meets the end of the file is rejected, the stream is
left with `failbit` set and `eofbit` cleared, and neither `splitInput` nor `main` returns
for any fuel: nothing is written to the output. -/
theorem multi_run_example_hangs (F g fuel : Nat) (e : Fin 32) :
    admits F (F + (66 + e.val))
      (splitRun (fun _ => F) (F + (66 + e.val)) "d\nb\na\nc\n".toList 0) = true ∧
    admits F (F + (66 + e.val))
      (splitRun (fun _ => F) (F + (66 + e.val)) "d\nb\na\nc\n".toList 1) = true ∧
    admits F (F + (66 + e.val))
      (splitRun (fun _ => F) (F + (66 + e.val)) "d\nb\na\nc\n".toList 2) = false ∧
    (splitRun (fun _ => F) (F + (66 + e.val)) "d\nb\na\nc\n".toList 2).vLines
      = ["d".toList, "b".toList] ∧
    (splitRun (fun _ => F) (F + (66 + e.val)) "d\nb\na\nc\n".toList 6).iTotalFiles = 2 ∧
    (splitRun (fun _ => F) (F + (66 + e.val)) "d\nb\na\nc\n".toList 6).lTotalLines = 4 ∧
    (splitRun (fun _ => F) (F + (66 + e.val)) "d\nb\na\nc\n".toList 6).fs 0
      = some "b\nd\n".toList ∧
    (splitRun (fun _ => F) (F + (66 + e.val)) "d\nb\na\nc\n".toList 6).fs 1
      = some "a\nc\n".toList ∧
    Stuck (splitRun (fun _ => F) (F + (66 + e.val)) "d\nb\na\nc\n".toList 6).stInputfile ∧
    splitInput (fun _ => F) (F + (66 + e.val)) fuel "d\nb\na\nc\n".toList = none ∧
    main 4 (some "d\nb\na\nc\n".toList) (F + (66 + e.val)) F (fun _ => F) g fuel = none := by
  have he := e.isLt
  have hsame : ∀ k, k < 6 →
      admits 0 66 (splitRun (fun _ => 0) 66 "d\nb\na\nc\n".toList k)
        = admits 0 97 (splitRun (fun _ => 0) 66 "d\nb\na\nc\n".toList k) := by decide
  have hrun : ∀ n, n ≤ 6 →
      splitRun (fun _ => F) (F + (66 + e.val)) "d\nb\na\nc\n".toList n
        = splitRun (fun _ => 0) 66 "d\nb\na\nc\n".toList n := by
    intro n hn
    rw [splitRun_shift]
    exact splitRun_between (fun _ => 0) 66 97 (66 + e.val) _ (by omega) (by omega) n
      (fun k hk => hsame k (by omega))
  have hadm : ∀ n, n < 6 →
      admits F (F + (66 + e.val))
          (splitRun (fun _ => F) (F + (66 + e.val)) "d\nb\na\nc\n".toList n)
        = admits 0 66 (splitRun (fun _ => 0) 66 "d\nb\na\nc\n".toList n) := by
    intro n hn
    rw [hrun n (by omega), admits_shift]
    exact admits_between 0 66 97 (66 + e.val) _ (by omega) (by omega) (hsame n hn)
  have hnone : splitInput (fun _ => F) (F + (66 + e.val)) fuel "d\nb\na\nc\n".toList
      = none := by
    unfold splitInput
    have hno : ∀ i, 0 ≤ i → i < 0 + 6 →
        (splitRun (fun _ => F) (F + (66 + e.val)) "d\nb\na\nc\n".toList i).stInputfile.eofbit
          = false := by
      intro i _ hi
      rw [hrun i (by omega)]
      have hall : ∀ k, k < 6 →
          (splitRun (fun _ => 0) 66 "d\nb\na\nc\n".toList k).stInputfile.eofbit = false := by
        decide
      exact hall i (by omega)
    have hst : Stuck (splitRun (fun _ => F) (F + (66 + e.val))
        "d\nb\na\nc\n".toList (0 + 6)).stInputfile := by
      rw [hrun (0 + 6) (by omega)]
      exact ⟨rfl, rfl⟩
    have := splitLoop_none_of_stuck (fun _ => F) (F + (66 + e.val)) "d\nb\na\nc\n".toList
      6 0 fuel hno hst
    have h0 : splitRun (fun _ => F) (F + (66 + e.val)) "d\nb\na\nc\n".toList 0
        = splitInit "d\nb\na\nc\n".toList := rfl
    rw [h0] at this
    rw [this]
    rfl
  refine ⟨?_, ?_, ?_, ?_, ?_, ?_, ?_, ?_, ?_, hnone, ?_⟩
  · rw [hadm 0 (by omega)]; rfl
  · rw [hadm 1 (by omega)]; rfl
  · rw [hadm 2 (by omega)]; rfl
  · rw [hrun 2 (by omega)]; rfl
  · rw [hrun 6 (by omega)]; rfl
  · rw [hrun 6 (by omega)]; rfl
  · rw [hrun 6 (by omega)]; rfl
  · rw [hrun 6 (by omega)]; rfl
  · rw [hrun 6 (by omega)]; exact ⟨rfl, rfl⟩
  · have h1 : ¬ F + (66 + e.val) ≤ F := by omega
    simp only [main, h1, if_false, hnone]
    rfl

/-- C7 (defect). The empty-line policy fails.  On the input lines `x`, an empty line, `y`
with a constant footprint `F` and the budget `F + 1000` the program either does not complete
or writes `x` followed by an empty line, and it does so when the uninitialised entry of
`arFilenumber` is zero: the output then holds an empty line and one non-empty line, the
input two.  On the input lines `c`, `d` with the budget `5098` and a footprint of `5100`
in the first pass of `splitInput` and `5000` otherwise, the program writes an empty line
followed by `c`, whatever the uninitialised entry holds. -/
theorem empty_line_policy_fails (F g fuel : Nat) :
    (outputOf (main 4 (some "x\n\ny\n".toList) (F + 1000) F (fun _ => F) g fuel) = none ∨
      outputOf (main 4 (some "x\n\ny\n".toList) (F + 1000) F (fun _ => F) g fuel)
        = some "x\n\n".toList) ∧
    outputOf (main 4 (some "x\n\ny\n".toList) (F + 1000) F (fun _ => F) 0 50)
      = some "x\n\n".toList ∧
    [] ∈ fileLines "x\n\n".toList ∧
    (nonEmptyLines "x\n\n".toList).length = 1 ∧
    (nonEmptyLines "x\n\ny\n".toList).length = 2 ∧
    outputOf (main 4 (some "c\nd\n".toList) 5098 5000
        (fun k => if k = 0 then 5100 else 5000) g 20) = some "\nc\n".toList ∧
    [] ∈ fileLines "\nc\n".toList := by
  refine ⟨?_, ?_, by decide, by decide, by decide, ?_, by decide⟩
  · rw [main_shift]
    exact main_single_run 4 "x\n\ny\n".toList 1000 0 (fun _ => 0) 50 "x\n\n".toList
      rfl rfl rfl g fuel
  · rw [main_shift]
    rfl
  · rw [main_garbage_of_check 4 "c\nd\n".toList 5098 5000
      (fun k => if k = 0 then 5100 else 5000) g 0 20 rfl]
    rfl

/-- C8. Run generation loses nothing: when `splitInput` returns, the lines of the runs
`temp_0 .. temp_<N-1>` it persisted, taken as a multiset, are the non-empty lines of the
input, and the total `lTotalLines` it reports is the number of non-empty input lines, which
is the sum of the lengths of the runs. -/
theorem splitInput_runs_complete (mem : Nat → Nat) (lim fuel : Nat) (input : List Char)
    (r : SplitResult) (h : splitInput mem lim fuel input = some r) :
    (↑(allRunLines r.fs r.iTotalFiles) : Multiset Line) = ↑(nonEmptyLines input) ∧
    r.lTotalLines = (nonEmptyLines input).length ∧
    r.lTotalLines = ((List.range r.iTotalFiles).map (fun i => (runLines r.fs i).length)).sum := by
  obtain ⟨batches, hN, hfs, hflat, hL⟩ := splitInput_batches mem lim fuel input r h
  have hruns := allRunLines_batches r.fs batches
    (fun b hb l hl => (batches_no_newline input batches hflat b hb l hl).2) hfs
  have hall : allRunLines r.fs r.iTotalFiles = (batches.map sortLines).flatten := by
    unfold allRunLines
    rw [hN, ← hruns, List.flatMap_def]
  have hperm : (allRunLines r.fs r.iTotalFiles).Perm (nonEmptyLines input) := by
    rw [hall, ← hflat]
    exact flatten_map_sortLines_perm batches
  refine ⟨Multiset.coe_eq_coe.mpr hperm, hL, ?_⟩
  have hsum : ((List.range r.iTotalFiles).map (fun i => (runLines r.fs i).length)).sum
      = (allRunLines r.fs r.iTotalFiles).length := by
    unfold allRunLines
    rw [List.flatMap_def, List.length_flatten, List.map_map]
    rfl
  rw [hsum, hL]
  exact hperm.length_eq.symm

/-- Witness of C8: the theorem applied to a run of `splitInput` that returns. -/
theorem splitInput_runs_complete_witness :
    ∃ r, splitInput (fun _ => 5000) 5098 20 "d\nb\na\nc\n".toList = some r ∧
      ((↑(allRunLines r.fs r.iTotalFiles) : Multiset Line) =
          ↑(nonEmptyLines "d\nb\na\nc\n".toList) ∧
        r.lTotalLines = (nonEmptyLines "d\nb\na\nc\n".toList).length ∧
        r.lTotalLines =
          ((List.range r.iTotalFiles).map (fun i => (runLines r.fs i).length)).sum) :=
  ⟨_, rfl, splitInput_runs_complete (fun _ => 5000) 5098 20 _ _ rfl⟩

/-- C9. Run invariant: after any number `n` of passes of the loop of `splitInput`, whether
or not the loop ever ends, the temporary files are exactly `temp_0 .. temp_<N-1>` for the
current count `N`, and every one of them was persisted through `sortWriteSlice` by an
earlier pass that rejected its read and flushed its batch: the run is in non-decreasing
lexicographic order, contains no empty line and is a permutation of that batch.  The same
holds of the files left when the loop ends in that state, where the batch still in memory,
when it has lines, is persisted as one more run.  Whatever `splitInput` returns is what is
left in this way after some number of passes. -/
theorem persisted_runs_sorted (mem : Nat → Nat) (lim : Nat) (input : List Char) (n : Nat) :
    (∀ i, (splitRun mem lim input n).iTotalFiles ≤ i →
      (splitRun mem lim input n).fs i = none) ∧
    (∀ i, i < (splitRun mem lim input n).iTotalFiles →
      ∃ m, m < n ∧ admits (mem m) lim (splitRun mem lim input m) = false ∧
        (splitRun mem lim input m).iTotalFiles = i ∧
        RunOf (splitRun mem lim input n).fs i (splitRun mem lim input m).vLines) ∧
    (∀ i, (splitFinish (splitRun mem lim input n)).iTotalFiles ≤ i →
      (splitFinish (splitRun mem lim input n)).fs i = none) ∧
    (∀ i, i < (splitFinish (splitRun mem lim input n)).iTotalFiles →
      (∃ m, m < n ∧ admits (mem m) lim (splitRun mem lim input m) = false ∧
        (splitRun mem lim input m).iTotalFiles = i ∧
        RunOf (splitFinish (splitRun mem lim input n)).fs i
          (splitRun mem lim input m).vLines) ∨
      (i = (splitRun mem lim input n).iTotalFiles ∧
        (splitRun mem lim input n).vLines ≠ [] ∧
        RunOf (splitFinish (splitRun mem lim input n)).fs i
          (splitRun mem lim input n).vLines)) ∧
    (∀ fuel r, splitInput mem lim fuel input = some r →
      ∃ k, r = splitFinish (splitRun mem lim input k)) := by
  obtain ⟨hnone, hfiles⟩ := splitRun_files mem lim input n
  have hlines := fun k => (splitRun_lines mem lim input k).2
  refine ⟨hnone, ?_, ?_, ?_, ?_⟩
  · intro i hi
    obtain ⟨m, hm, ha, hN, hfs⟩ := hfiles i hi
    exact ⟨m, hm, ha, hN, runOf_of_written _ i _ (hlines m) hfs⟩
  · intro i hi
    unfold splitFinish at hi ⊢
    by_cases hv : (splitRun mem lim input n).vLines.length > 0
    · simp only [hv, if_true] at hi ⊢
      simp only [sortWriteSlice]
      rw [Function.update_noteq (by omega)]
      exact hnone i (by omega)
    · simp only [hv, if_false] at hi ⊢
      exact hnone i hi
  · intro i hi
    unfold splitFinish at hi ⊢
    by_cases hv : (splitRun mem lim input n).vLines.length > 0
    · simp only [hv, if_true] at hi ⊢
      by_cases hi' : i = (splitRun mem lim input n).iTotalFiles
      · right
        refine ⟨hi', List.length_pos.mp hv, runOf_of_written _ i _ (hlines n) ?_⟩
        simp only [sortWriteSlice]
        rw [hi', Function.update_same]
      · left
        obtain ⟨m, hm, ha, hN, hfs⟩ := hfiles i (by omega)
        refine ⟨m, hm, ha, hN, runOf_of_written _ i _ (hlines m) ?_⟩
        simp only [sortWriteSlice]
        rw [Function.update_noteq hi']
        exact hfs
    · simp only [hv, if_false] at hi ⊢
      left
      obtain ⟨m, hm, ha, hN, hfs⟩ := hfiles i hi
      exact ⟨m, hm, ha, hN, runOf_of_written _ i _ (hlines m) hfs⟩
  · intro fuel r h
    unfold splitInput at h
    simp only [Option.map_eq_some'] at h
    obtain ⟨st, hst, hr⟩ := h
    have h0 : splitRun mem lim input 0 = splitInit input := rfl
    rw [← h0] at hst
    obtain ⟨k, hk, _⟩ := splitLoop_eq_splitRun mem lim input fuel 0 st hst
    exact ⟨k, by rw [← hr, hk]⟩

/-- Witness of C9: a run of `splitInput` that never returns (the input lines `d`, `b`, `a`,
`c` with the footprint `5000` and the budget `5066`); after six passes two runs are
persisted, and the run `temp_1` is the sorted batch that an earlier pass flushed. -/
theorem persisted_runs_sorted_witness :
    (¬ ∃ fuel r, splitInput (fun _ => 5000) 5066 fuel "d\nb\na\nc\n".toList = some r) ∧
    (splitRun (fun _ => 5000) 5066 "d\nb\na\nc\n".toList 6).iTotalFiles = 2 ∧
    (splitRun (fun _ => 5000) 5066 "d\nb\na\nc\n".toList 6).fs 1 = some "a\nc\n".toList ∧
    ∃ m, m < 6 ∧
      admits 5000 5066 (splitRun (fun _ => 5000) 5066 "d\nb\na\nc\n".toList m) = false ∧
      (splitRun (fun _ => 5000) 5066 "d\nb\na\nc\n".toList m).iTotalFiles = 1 ∧
      RunOf (splitRun (fun _ => 5000) 5066 "d\nb\na\nc\n".toList 6).fs 1
        (splitRun (fun _ => 5000) 5066 "d\nb\na\nc\n".toList m).vLines :=
  have hnone : ¬ ∃ fuel r,
      splitInput (fun _ => 5000) 5066 fuel "d\nb\na\nc\n".toList = some r := by
    rintro ⟨fuel, r, h⟩
    unfold splitInput at h
    rw [splitLoop_stuckAfter (fun _ => 5000) 5066 6 0 (splitInit "d\nb\na\nc\n".toList) rfl
      fuel] at h
    cases h
  ⟨hnone, rfl, rfl,
    (persisted_runs_sorted (fun _ => 5000) 5066 "d\nb\na\nc\n".toList 6).2.1 1 (by decide)⟩

/-- C10 (defect). An oversize line is never admitted: on the input lines `aaaa`, `b` with
the constant footprint `5000` and the budget `5035`, which the first line alone exceeds
(`5000 + 32 + 4`), `splitInput` does not return for any fuel; after any number of passes of
its loop the read position is still at the start of the file, the batch is empty and no
temporary file holds the line `aaaa`. -/
theorem oversize_line_counterexample :
    (¬ ∃ fuel r, splitInput (fun _ => 5000) 5035 fuel "aaaa\nb\n".toList = some r) ∧
    (¬ ∃ n, ((splitStep 5000 5035)^[n] (splitInit "aaaa\nb\n".toList)).stInputfile
        ≠ openIn (some "aaaa\nb\n".toList)) ∧
    (¬ ∃ n, ((splitStep 5000 5035)^[n] (splitInit "aaaa\nb\n".toList)).vLines ≠ []) ∧
    (¬ ∃ n i, ((splitStep 5000 5035)^[n] (splitInit "aaaa\nb\n".toList)).fs i
        = some "aaaa\n".toList) := by
  have hbig : 5035 < 5000 + sizeofString + "aaaa".toList.length := by decide
  have hit := iterate_splitStep_oversize 5000 5035 "aaaa".toList "b\n".toList (by decide) hbig
  refine ⟨?_, ?_, ?_, ?_⟩
  · rintro ⟨fuel, r, h⟩
    unfold splitInput at h
    rw [splitLoop_oversize 5000 5035 "aaaa".toList "b\n".toList (by decide) hbig fuel 0
      (splitInit "aaaa\nb\n".toList) rfl rfl rfl rfl] at h
    cases h
  · rintro ⟨n, h⟩
    exact h (hit n).1
  · rintro ⟨n, h⟩
    exact h (hit n).2.1
  · rintro ⟨n, i, h⟩
    have h7 : some "aaaa\n".toList = (if i < n then some [] else none : Option (List Char)) :=
      h.symm.trans ((hit n).2.2.2.2.2 i)
    revert h7
    split_ifs <;> decide

/-- C11 (defect). A zero-line run `temp_0` is not excluded from the merge: for the runs
`temp_0` without lines and `temp_1` holding the line `a`, with `L = 1`, `writeOutput` writes
one empty line, and `temp_1` still holds `a` when the loop ends. -/
theorem zero_line_run_written (g : Nat) :
    ∃ st, writeOutput g 20 (runsFS [[], ["a".toList]]) 2 1 = some st ∧
      st.output = "\n".toList ∧ st.lWrittenLines = 1 ∧ st.fs 1 = some "a\n".toList := by
  rw [writeOutput_garbage g 0 20 (runsFS [[], ["a".toList]]) 2 1 1
    (by decide) (by decide) (by decide) (by decide)]
  exact ⟨_, rfl, rfl, rfl, rfl⟩

/-- C12. Advance: for a run `temp_<name>` that holds the lines `ls`, none of them empty,
`discard1stLine` (given fuel for one pass of its loop per line) returns, leaves every other
temporary file as it is, and leaves in the run exactly the lines after the first, unchanged
and in the same order; a run with one line or no line is left empty. -/
theorem discard1stLine_tail (fuel : Nat) (fs : TempFS) (name : Nat) (ls : List Line)
    (hfs : fs name = some (writeLines ls)) (hne : ∀ l ∈ ls, l ≠ [])
    (hnl : ∀ l ∈ ls, newline ∉ l) (hfuel : ls.length ≤ fuel) :
    ∃ fs1, discard1stLine fuel fs name = some fs1 ∧
      fs1 name = some (writeLines ls.tail) ∧ runLines fs1 name = ls.tail ∧
      (∀ j, j ≠ name → fs1 j = fs j) ∧
      (ls.length ≤ 1 → fs1 name = some []) := by
  refine ⟨_, discard1stLine_writeLines fuel fs name ls hfs (fun l hl => ⟨hne l hl, hnl l hl⟩)
    hfuel, by simp, ?_, ?_, ?_⟩
  · simp only [runLines, Function.update_same]
    exact fileLines_writeLines _ (fun l hl => hnl l (List.mem_of_mem_tail hl))
  · intro j hj
    simp [Function.update_noteq hj]
  · intro h1
    have : ls.tail = [] := by
      cases ls with
      | nil => rfl
      | cons l ls' =>
        cases ls' with
        | nil => rfl
        | cons a b => simp at h1
    simp [this, writeLines]

/-- Witness of C12: the run `a`, `b`, `c` in `temp_0`. -/
theorem discard1stLine_tail_witness :
    runsFS [["a".toList, "b".toList, "c".toList]] 0
      = some (writeLines ["a".toList, "b".toList, "c".toList]) ∧
    ∃ fs1, discard1stLine 5 (runsFS [["a".toList, "b".toList, "c".toList]]) 0 = some fs1 ∧
      fs1 0 = some (writeLines ["b".toList, "c".toList]) ∧
      runLines fs1 0 = ["b".toList, "c".toList] := by
  obtain ⟨fs1, h1, h2, h3, _⟩ := discard1stLine_tail 5
    (runsFS [["a".toList, "b".toList, "c".toList]]) 0
    ["a".toList, "b".toList, "c".toList] rfl (by decide) (by decide) (by decide)
  exact ⟨rfl, fs1, h1, h2, h3⟩

/-- C13 (defect). One batch, no return: on the input lines `banana`, `apple` with a
constant footprint `F` and the budget `F + 75` both lines pass the admission check in one
batch (`F + 38` and `F + 75`); the empty read that meets the end of the file is rejected
(`F + 75 + 32`), the batch is written to `temp_0` as `apple`, `banana`, and `splitInput`
does not return for any fuel. -/
theorem single_batch_no_return (F fuel : Nat) :
    admits F (F + 75) (splitInit "banana\napple\n".toList) = true ∧
    admits F (F + 75) (splitStep F (F + 75) (splitInit "banana\napple\n".toList)) = true ∧
    splitInput (fun _ => F) (F + 75) fuel "banana\napple\n".toList = none ∧
    ((splitStep F (F + 75))^[3] (splitInit "banana\napple\n".toList)).iTotalFiles = 1 ∧
    ((splitStep F (F + 75))^[3] (splitInit "banana\napple\n".toList)).fs 0
      = some "apple\nbanana\n".toList ∧
    Stuck ((splitStep F (F + 75))^[3] (splitInit "banana\napple\n".toList)).stInputfile := by
  have e1 : splitStep F (F + 75) = splitStep 0 75 := by
    funext st; exact splitStep_shift F 0 75 st
  have a1 : ∀ st, admits F (F + 75) st = admits 0 75 st := by
    intro st
    unfold admits
    congr 1
    apply propext
    constructor <;> intro h <;> omega
  refine ⟨?_, ?_, ?_, ?_, ?_, ?_⟩
  · rw [a1]; rfl
  · rw [a1, e1]; rfl
  · rw [splitInput_shift]
    unfold splitInput
    rw [splitLoop_stuckAfter (fun _ => 0) 75 3 0 (splitInit "banana\napple\n".toList) rfl fuel]
    rfl
  · rw [e1]; rfl
  · rw [e1]; rfl
  · rw [e1]; exact ⟨rfl, rfl⟩

/-- C14 (defect). The output depends on the budget: on the input lines `c`, `d`, `a`, `b`
with a constant footprint `F` the program completes under the budgets `F + 98` (two lines
per batch) and `F + 65` (one line per batch), and writes `a`, `b`, `c`, `b` under the first
and `a`, `b`, `c`, `d` under the second. -/
theorem budget_changes_output (F g : Nat) :
    outputOf (main 4 (some "c\nd\na\nb\n".toList) (F + 98) F (fun _ => F) g 20)
      = some "a\nb\nc\nb\n".toList ∧
    outputOf (main 4 (some "c\nd\na\nb\n".toList) (F + 65) F (fun _ => F) g 20)
      = some "a\nb\nc\nd\n".toList ∧
    "a\nb\nc\nb\n".toList ≠ "a\nb\nc\nd\n".toList := by
  refine ⟨?_, ?_, by decide⟩
  · rw [main_shift, main_garbage_of_check 4 "c\nd\na\nb\n".toList 98 0 (fun _ => 0) g 0 20 rfl]
    rfl
  · rw [main_shift, main_garbage_of_check 4 "c\nd\na\nb\n".toList 65 0 (fun _ => 0) g 0 20 rfl]
    rfl

/-- C15. Budget rejection: with at least three arguments and an existing input file, `main`
returns `-1` without running `splitInput` or `writeOutput`, and reports the startup
footprint plus one as the minimum, when the budget is at most the startup footprint; for
every budget above the footprint it reports nothing and proceeds to phase 1, its outcome
being that of `splitInput` followed by `writeOutput`; hence it returns `-1` if and only if
the budget is at most the footprint. -/
theorem budget_rejection (argc : Nat) (d : List Char) (lim F : Nat) (mem : Nat → Nat)
    (g fuel : Nat) (hargc : 4 ≤ argc) :
    (lim ≤ F →
      main argc (some d) lim F mem g fuel
          = some { exitCode := -1, split := none, merge := none } ∧
        reportedMinimum argc (some d) lim F = some (F + 1)) ∧
    (F < lim →
      main argc (some d) lim F mem g fuel
          = (splitInput mem lim fuel d).bind (fun r =>
              (writeOutput g fuel r.fs r.iTotalFiles r.lTotalLines).map (fun m =>
                { exitCode := 0, split := some r, merge := some m })) ∧
        reportedMinimum argc (some d) lim F = none) ∧
    ((∃ r, main argc (some d) lim F mem g fuel = some r ∧ r.exitCode = -1) ↔ lim ≤ F) := by
  have h4 : ¬ argc < 4 := by omega
  have hrej : lim ≤ F → main argc (some d) lim F mem g fuel
      = some { exitCode := -1, split := none, merge := none } := by
    intro h
    simp only [main, h4, if_false, h, if_true]
  have hacc : F < lim → main argc (some d) lim F mem g fuel
      = (splitInput mem lim fuel d).bind (fun r =>
          (writeOutput g fuel r.fs r.iTotalFiles r.lTotalLines).map (fun m =>
            { exitCode := 0, split := some r, merge := some m })) := by
    intro h
    have h' : ¬ lim ≤ F := by omega
    simp only [main, h4, if_false, h']
    cases splitInput mem lim fuel d with
    | none => rfl
    | some r =>
      simp only [Option.some_bind]
      cases writeOutput g fuel r.fs r.iTotalFiles r.lTotalLines <;> rfl
  refine ⟨fun h => ⟨hrej h, ?_⟩, fun h => ⟨hacc h, ?_⟩, ?_⟩
  · simp only [reportedMinimum, h4, if_false, h, if_true]
  · have h' : ¬ lim ≤ F := by omega
    simp only [reportedMinimum, h4, if_false, h']
  · constructor
    · rintro ⟨r, hr, hcode⟩
      by_contra hn
      have hlt : F < lim := by omega
      rw [hacc hlt] at hr
      simp only [Option.bind_eq_some, Option.map_eq_some'] at hr
      obtain ⟨sr, _, m, _, hm⟩ := hr
      rw [← hm] at hcode
      simp at hcode
    · intro h
      exact ⟨_, hrej h, rfl⟩

/-- Witness of C15: four arguments, the budget `10` and the startup footprint `20`. -/
theorem budget_rejection_witness :
    4 ≤ 4 ∧
    (main 4 (some "a\n".toList) 10 20 (fun _ => 20) 0 5
        = some { exitCode := -1, split := none, merge := none } ∧
      reportedMinimum 4 (some "a\n".toList) 10 20 = some 21) ∧
    ((∃ r, main 4 (some "a\n".toList) 10 20 (fun _ => 20) 0 5 = some r ∧ r.exitCode = -1)
      ↔ 10 ≤ 20) :=
  have h := budget_rejection 4 "a\n".toList 10 20 (fun _ => 20) 0 5 (by decide)
  ⟨by decide, h.1 (by decide), h.2.2⟩

/-- C16 (counterexample). No mismatch is surfaced: for the runs `a` and `b`, which hold two
lines, `writeOutput` completes normally with the recorded total `3`, having written the
three lines `a`, `b`, `a`, and with the recorded total `1`, having written the line `a`,
whatever the uninitialised entry of `arFilenumber` holds. -/
theorem integrity_check_counterexample :
    (¬ ∃ g, (writeOutput g 20 (runsFS [["a".toList], ["b".toList]]) 2 3).map
        (fun st => (st.lWrittenLines, st.output)) ≠ some (3, "a\nb\na\n".toList)) ∧
    (¬ ∃ g, (writeOutput g 20 (runsFS [["a".toList], ["b".toList]]) 2 1).map
        (fun st => (st.lWrittenLines, st.output)) ≠ some (1, "a\n".toList)) := by
  constructor
  · rintro ⟨g, h⟩
    apply h
    rw [writeOutput_garbage g 0 20 (runsFS [["a".toList], ["b".toList]]) 2 3 1
      (by decide) (by decide) (by decide) (by decide)]
    rfl
  · rintro ⟨g, h⟩
    apply h
    rw [writeOutput_garbage g 0 20 (runsFS [["a".toList], ["b".toList]]) 2 1 1
      (by decide) (by decide) (by decide) (by decide)]
    rfl

/-- C16 (amended). The function `writeOutput` checks nothing: for every collection of
temporary files and every recorded total `L`, a call that returns has counted exactly `L`
lines written, and its output is exactly `L` lines, none of which holds a separator, each
followed by one separator: read back line by line the output gives these `L` lines, and it
holds exactly `L` separators. -/
theorem writeOutput_writes_total (g fuel : Nat) (fs : TempFS) (N L : Nat) (st : MergeState)
    (h : writeOutput g fuel fs N L = some st) :
    st.lWrittenLines = L ∧
    ∃ lines : List Line, lines.length = L ∧ (∀ l ∈ lines, newline ∉ l) ∧
      st.output = writeLines lines ∧ fileLines st.output = lines ∧
      st.output.count newline = L := by
  obtain ⟨hw, lines, hlen, hnl, hout⟩ :=
    mergeLoop_lines fuel N L (mergeInit g fs) st (mergeInit_arLines g fs) h
  have ho : st.output = writeLines lines := by simpa [mergeInit] using hout
  refine ⟨by simpa [mergeInit] using hw, lines, hlen, hnl, ho, ?_, ?_⟩
  · rw [ho]
    exact fileLines_writeLines lines hnl
  · rw [ho, count_newline_writeLines lines hnl, hlen]

/-- Witness of C16 (amended): the runs `a` and `b` with the recorded total `3`. -/
theorem writeOutput_writes_total_witness :
    ∃ st, writeOutput 0 20 (runsFS [["a".toList], ["b".toList]]) 2 3 = some st ∧
      st.lWrittenLines = 3 ∧
      ∃ lines : List Line, lines.length = 3 ∧ (∀ l ∈ lines, newline ∉ l) ∧
        st.output = writeLines lines ∧ fileLines st.output = lines ∧
        st.output.count newline = 3 :=
  ⟨_, rfl, writeOutput_writes_total 0 20 (runsFS [["a".toList], ["b".toList]]) 2 3 _ rfl⟩

/-- C17 (defect). Run generation does not terminate when the read at the end of the file
is rejected.  On the input line `a` followed by a separator, with a constant footprint `F`
and the budget `F + 33`, the line fits an empty batch and is admitted, the empty read that
meets the end of the file is rejected (`F + 33 + 32 > F + 33`), the batch is written to
`temp_0` and the stream is left with `failbit` set and `eofbit` cleared: `splitInput` does
not return for any fuel.  On the empty input with the budget `F + 1` the first pass persists
a run without lines and `splitInput` does not return either. -/
theorem final_read_rejected_hangs (F fuel : Nat) :
    F + sizeofString + "a".toList.length ≤ F + 33 ∧
    splitInput (fun _ => F) (F + 33) fuel "a\n".toList = none ∧
    (splitStep F (F + 33) (splitStep F (F + 33) (splitInit "a\n".toList))).fs 0
      = some "a\n".toList ∧
    Stuck (splitStep F (F + 33) (splitStep F (F + 33) (splitInit "a\n".toList))).stInputfile ∧
    splitInput (fun _ => F) (F + 1) fuel [] = none ∧
    (splitStep F (F + 1) (splitInit [])).iTotalFiles = 1 ∧
    (splitStep F (F + 1) (splitInit [])).fs 0 = some [] := by
  have e1 : splitStep F (F + 33) = splitStep 0 33 := by
    funext st; exact splitStep_shift F 0 33 st
  have e2 : splitStep F (F + 1) = splitStep 0 1 := by
    funext st; exact splitStep_shift F 0 1 st
  refine ⟨by simp [sizeofString], ?_, ?_, ?_, ?_, ?_, ?_⟩
  · rw [splitInput_shift]
    unfold splitInput
    rw [splitLoop_stuckAfter (fun _ => 0) 33 2 0 (splitInit "a\n".toList) rfl fuel]
    rfl
  · rw [e1]; rfl
  · rw [e1]; exact ⟨rfl, rfl⟩
  · rw [splitInput_shift]
    unfold splitInput
    rw [splitLoop_stuckAfter (fun _ => 0) 1 1 0 (splitInit []) rfl fuel]
    rfl
  · rw [e2]; rfl
  · rw [e2]; rfl

/-- C18. Budget invariant of accumulation: a pass of the loop of `splitInput` appends the
line it read to the batch only when the line is non-empty and the admission check
`F + lCurrentSize + sizeof(string) + len(line) <= gMemLimit` holds for the footprint `F` of
that pass; `lCurrentSize` then grows by exactly `sizeof(string) + len(line)`, so that
`F + lCurrentSize <= gMemLimit` after the admission; an admitted empty line changes
nothing; a rejection empties the batch and resets `lCurrentSize` to `0`.  At the start of
every pass `lCurrentSize` is the sum of `sizeof(string) + len` over the lines of the
batch. -/
theorem accumulation_invariant (F lim : Nat) (st : SplitState) (mem : Nat → Nat)
    (input : List Char) (n : Nat) :
    ((admits F lim st = true ∧ (getline st.stInputfile st.szCurrentLine).2 ≠ [] ∧
        (splitStep F lim st).vLines
          = st.vLines ++ [(getline st.stInputfile st.szCurrentLine).2] ∧
        (splitStep F lim st).lCurrentSize = st.lCurrentSize +
          (sizeofString + (getline st.stInputfile st.szCurrentLine).2.length) ∧
        F + (splitStep F lim st).lCurrentSize ≤ lim) ∨
      (admits F lim st = true ∧ (getline st.stInputfile st.szCurrentLine).2 = [] ∧
        (splitStep F lim st).vLines = st.vLines ∧
        (splitStep F lim st).lCurrentSize = st.lCurrentSize) ∨
      (admits F lim st = false ∧ (splitStep F lim st).vLines = [] ∧
        (splitStep F lim st).lCurrentSize = 0)) ∧
    (splitRun mem lim input n).lCurrentSize = batchBytes (splitRun mem lim input n).vLines := by
  have step : ∀ (F : Nat) (st : SplitState),
      ((admits F lim st = true ∧ (getline st.stInputfile st.szCurrentLine).2 ≠ [] ∧
          (splitStep F lim st).vLines
            = st.vLines ++ [(getline st.stInputfile st.szCurrentLine).2] ∧
          (splitStep F lim st).lCurrentSize = st.lCurrentSize +
            (sizeofString + (getline st.stInputfile st.szCurrentLine).2.length) ∧
          F + (splitStep F lim st).lCurrentSize ≤ lim) ∨
        (admits F lim st = true ∧ (getline st.stInputfile st.szCurrentLine).2 = [] ∧
          (splitStep F lim st).vLines = st.vLines ∧
          (splitStep F lim st).lCurrentSize = st.lCurrentSize) ∨
        (admits F lim st = false ∧ (splitStep F lim st).vLines = [] ∧
          (splitStep F lim st).lCurrentSize = 0)) := by
    intro F st
    unfold admits splitStep
    by_cases hadm : F + st.lCurrentSize + sizeofString +
        (getline st.stInputfile st.szCurrentLine).2.length ≤ lim
    · by_cases hlen : (getline st.stInputfile st.szCurrentLine).2.length > 0
      · left
        have hne : (getline st.stInputfile st.szCurrentLine).2 ≠ [] := by
          intro e; rw [e] at hlen; simp at hlen
        simp only [hadm, hlen, if_true, decide_True, true_and]
        exact ⟨hne, by omega⟩
      · right; left
        have hnil : (getline st.stInputfile st.szCurrentLine).2 = [] := by
          cases hl : (getline st.stInputfile st.szCurrentLine).2 with
          | nil => rfl
          | cons c cs => rw [hl] at hlen; simp at hlen
        simp only [hadm, hlen, if_true, if_false, decide_True, true_and]
        exact ⟨hnil, trivial⟩
    · right; right
      simp only [hadm, if_false, decide_False, true_and]
  refine ⟨step F st, ?_⟩
  induction n with
  | zero => rfl
  | succ k ih =>
    simp only [splitRun]
    rcases step (mem k) (splitRun mem lim input k) with ⟨_, _, hv, hc, _⟩ | ⟨_, _, hv, hc⟩ |
      ⟨_, hv, hc⟩
    · rw [hv, hc, batchBytes_append, ih]
    · rw [hv, hc, ih]
    · rw [hv, hc]; rfl

/-- C19. First emitted line: for runs that all hold a line, are sorted and free of empty
lines, the line that the first pass of `writeOutput` writes is less than or equal to every
line of every run, it is the first line of the run `szMinFilename` that the pass then pops
with `discard1stLine`, every output of `writeOutput` with `L >= 1` starts with it, and the
pass (given fuel for one pass of the copying loop per line of a run) leaves in that run the
lines after the first and leaves the other runs as they are. -/
theorem first_line_minimum (g : Nat) (runs : List (List Line)) (hN : runs ≠ [])
    (hne : ∀ r ∈ runs, r ≠ []) (hsorted : ∀ r ∈ runs, r.Sorted (fun a b => a ≤ b))
    (hfree : ∀ r ∈ runs, ∀ l ∈ r, l ≠ []) (hnl : ∀ r ∈ runs, ∀ l ∈ r, newline ∉ l) :
    (∀ r ∈ runs, ∀ l ∈ r, lineWritten runs.length (mergeInit g (runsFS runs)) ≤ l) ∧
    (scanFiles runs.length (mergeInit g (runsFS runs))).szMinFilename < runs.length ∧
    firstLine runs (scanFiles runs.length (mergeInit g (runsFS runs))).szMinFilename
      = some (lineWritten runs.length (mergeInit g (runsFS runs))) ∧
    (∀ fuel L st, 1 ≤ L → writeOutput g fuel (runsFS runs) runs.length L = some st →
      ∃ rest, st.output
        = lineWritten runs.length (mergeInit g (runsFS runs)) ++ newline :: rest) ∧
    (∀ fuel, (∀ r ∈ runs, r.length ≤ fuel) →
      ∃ st1, mergeIter fuel runs.length (mergeInit g (runsFS runs)) = some st1 ∧
        st1.output = lineWritten runs.length (mergeInit g (runsFS runs)) ++ [newline] ∧
        runLines st1.fs (scanFiles runs.length (mergeInit g (runsFS runs))).szMinFilename
          = (runLines (runsFS runs)
              (scanFiles runs.length (mergeInit g (runsFS runs))).szMinFilename).tail ∧
        ∀ j, j ≠ (scanFiles runs.length (mergeInit g (runsFS runs))).szMinFilename →
          st1.fs j = runsFS runs j) := by
  have hlen : 1 ≤ runs.length := by
    cases runs with
    | nil => exact absurd rfl hN
    | cons r rs => simp
  obtain ⟨hfs, _, _, hlt, hhead, hle⟩ := scanInv_all g runs hne hnl runs.length hlen (le_refl _)
  have hw : lineWritten runs.length (mergeInit g (runsFS runs))
      = (scanFiles runs.length (mergeInit g (runsFS runs))).arLines
          (scanFiles runs.length (mergeInit g (runsFS runs))).lMinIdx := rfl
  refine ⟨?_, hlt, by rw [hw]; exact hhead, ?_, ?_⟩
  · intro r hr l hl
    rw [hw]
    obtain ⟨i, hi, rfl⟩ := List.getElem_of_mem hr
    cases hri : runs[i] with
    | nil => exact absurd hri (hne _ hr)
    | cons x xs =>
      have hx : firstLine runs i = some x := by
        simp [firstLine, List.getElem?_eq_getElem hi, hri]
      have h1 := hle i hi x hx
      rw [hri] at hl
      rcases List.mem_cons.mp hl with rfl | hl'
      · exact h1
      · have hs := hsorted _ hr
        rw [hri] at hs
        exact le_trans h1 (List.rel_of_sorted_cons hs l hl')
  · intro fuel L st hL h
    obtain ⟨k, rfl⟩ : ∃ k, L = k + 1 := ⟨L - 1, by omega⟩
    unfold writeOutput at h
    simp only [mergeLoop, Option.bind_eq_some] at h
    obtain ⟨st1, h1, h2⟩ := h
    obtain ⟨_, lines, _, hout⟩ := mergeLoop_output fuel runs.length k st1 st h2
    refine ⟨writeLines lines, ?_⟩
    rw [hout, mergeIter_output fuel runs.length _ st1 h1]
    simp [mergeInit]
  · intro fuel hfuel
    have hmem : runs[(scanFiles runs.length (mergeInit g (runsFS runs))).szMinFilename]
        ∈ runs := List.getElem_mem hlt
    have hfile : (scanFiles runs.length (mergeInit g (runsFS runs))).fs
        (scanFiles runs.length (mergeInit g (runsFS runs))).szMinFilename
        = some (writeLines
            runs[(scanFiles runs.length (mergeInit g (runsFS runs))).szMinFilename]) := by
      rw [hfs]
      simp [runsFS, List.getElem?_eq_getElem hlt]
    have hd := discard1stLine_writeLines fuel
      (scanFiles runs.length (mergeInit g (runsFS runs))).fs
      (scanFiles runs.length (mergeInit g (runsFS runs))).szMinFilename
      runs[(scanFiles runs.length (mergeInit g (runsFS runs))).szMinFilename] hfile
      (fun l hl => ⟨hfree _ hmem l hl, hnl _ hmem l hl⟩) (hfuel _ hmem)
    obtain ⟨st1, hst1⟩ : ∃ st1, mergeIter fuel runs.length (mergeInit g (runsFS runs))
        = some st1 := by
      simp only [mergeIter, hd]
      exact ⟨_, rfl⟩
    have hout := mergeIter_output fuel runs.length _ st1 hst1
    have hfs1 : st1.fs = Function.update (scanFiles runs.length (mergeInit g (runsFS runs))).fs
        (scanFiles runs.length (mergeInit g (runsFS runs))).szMinFilename
        (some (writeLines
          runs[(scanFiles runs.length (mergeInit g (runsFS runs))).szMinFilename].tail)) := by
      simp only [mergeIter, hd, Option.some.injEq] at hst1
      rw [← hst1]
    refine ⟨st1, hst1, ?_, ?_, ?_⟩
    · rw [hout]
      simp [mergeInit]
    · rw [hfs1]
      simp only [runLines, Function.update_same]
      rw [fileLines_writeLines _ (fun l hl => hnl _ hmem l (List.mem_of_mem_tail hl))]
      have := runLines_runsFS runs _ hlt hnl
      simp only [runLines] at this
      rw [this]
    · intro j hj
      rw [hfs1]
      simp only [Function.update_noteq hj, hfs]

/-- Witness of C19: the runs `b`, `d` and `a`, `c`. -/
theorem first_line_minimum_witness :
    (∀ r ∈ [["b".toList, "d".toList], ["a".toList, "c".toList]], ∀ l ∈ r,
      lineWritten 2 (mergeInit 0 (runsFS [["b".toList, "d".toList], ["a".toList, "c".toList]]))
        ≤ l) ∧
    firstLine [["b".toList, "d".toList], ["a".toList, "c".toList]]
      (scanFiles 2 (mergeInit 0
        (runsFS [["b".toList, "d".toList], ["a".toList, "c".toList]]))).szMinFilename
      = some (lineWritten 2
        (mergeInit 0 (runsFS [["b".toList, "d".toList], ["a".toList, "c".toList]]))) := by
  have h := first_line_minimum 0 [["b".toList, "d".toList], ["a".toList, "c".toList]]
    (by decide) (by decide) (by decide) (by decide) (by decide)
  exact ⟨h.1, h.2.2.1⟩

end ExtSort
